import Mathlib

/-!
Verification of the `BuildContext` component of the pythainer library
(`src/pythainer/builders/contexts.py` and the part of
`src/pythainer/builders/__init__.py` that consumes it).

The embedding is shallow:

* `PyPath` models Python `pathlib.PurePosixPath` values: a path is parsed
  into an absoluteness flag plus a list of components, with empty and `"."`
  components dropped and `".."` kept, exactly as `pathlib` does.
* Python dicts (`ctx_path -> host_path` and the host filesystem) are
  modelled as association lists with insertion-order semantics:
  assignment replaces the value in place for an existing key and appends
  otherwise, mirroring `dict.__setitem__`.
* Exceptions are modelled with `Except`; an operation that mutates `self`
  returns the post-state next to the `Except` result, and the post-state
  equals the pre-state on the error branches because the Python code
  raises before its mutation statements.
* The host filesystem is a finite map from paths to nodes (regular file
  with byte content, directory, or any other entry such as a socket or
  broken symlink).  `shutil.copy2`, `shutil.copytree` and `Path.mkdir`
  are modelled as state transformers at Python-statement granularity:
  copies overwrite their destination, `copytree(dirs_exist_ok=True)`
  merges, and `mkdir(parents=True, exist_ok=True)` creates every missing
  ancestor as a directory and fails when the target or an ancestor exists
  as a non-directory.
-/

namespace Pythainer

/-- Model of `pathlib.PurePosixPath`: an absoluteness flag and the list of
non-root components (empty and `"."` components dropped, `".."` kept). -/
structure PyPath where
  absolute : Bool
  parts : List String
deriving DecidableEq, Repr

/-- Split a character list at `/` separators, keeping empty segments
(the same segmentation `str.split("/")` produces). -/
def splitSlash : List Char → List Char → List String
  | [], acc => [String.mk acc.reverse]
  | c :: cs, acc =>
    if c = '/' then String.mk acc.reverse :: splitSlash cs []
    else splitSlash cs (c :: acc)

/-- Parse a POSIX path string the way `PurePosixPath` does: split on `/`,
drop empty and `"."` components, keep `".."`. -/
def parsePath (s : String) : PyPath :=
  { absolute :=
      match s.data with
      | c :: _ => decide (c = '/')
      | [] => false
    parts :=
      (splitSlash s.data []).filter (fun c => !(decide (c = "") || decide (c = "."))) }

/-- `PurePosixPath.name`: the final component, or `""` when there is none. -/
def PyPath.name (p : PyPath) : String :=
  (p.parts.getLast?).getD ""

/-- `Path(s)` applied to a `.name` result: `name` is a single component
(no `/`), possibly empty. -/
def pathOfName (s : String) : PyPath :=
  { absolute := false, parts := if s = "" then [] else [s] }

/-- Boolean prefix test on component lists (our own definition, used both
for `relative_to` and for reasoning about directory trees). -/
def partsLe : List String → List String → Bool
  | [], _ => true
  | _ :: _, [] => false
  | a :: as, b :: bs => decide (a = b) && partsLe as bs

/-- `PurePosixPath.relative_to`: succeeds iff both paths have the same
absoluteness and the root's components are a prefix of the path's
components; the result is relative and keeps the remaining components
(`..` components are NOT resolved, as in `pathlib`). -/
def PyPath.relativeTo (p root : PyPath) : Option PyPath :=
  if p.absolute = root.absolute ∧ partsLe root.parts p.parts = true then
    some { absolute := false, parts := p.parts.drop root.parts.length }
  else
    none

/-- `PurePosixPath.__truediv__` (`p / q`): an absolute right operand
replaces the left one, otherwise components are appended. -/
def PyPath.join (p q : PyPath) : PyPath :=
  if q.absolute then q else { absolute := p.absolute, parts := p.parts ++ q.parts }

/-- `PurePosixPath.parent`: drop the final component. -/
def PyPath.parent (p : PyPath) : PyPath :=
  { absolute := p.absolute, parts := p.parts.dropLast }

/-- `q` lies inside the tree rooted at `root` (including `root` itself). -/
def underPath (root q : PyPath) : Bool :=
  root.absolute == q.absolute && partsLe root.parts q.parts

/-- The error kinds raised by the Python code, with their payloads.

* `notRelative`: `ValueError` from `Path.relative_to` in `add_context_entry`.
* `duplicateEntry`: `ValueError("Duplicate context entry: ...")`.
* `duplicateMerge`: `ValueError("Duplicate context entries detected before
  merging: ...")`, carrying every conflicting context path.
* `invalidContextPath`: `ValueError("Invalid context path ...")` from `build`.
* `missingHostPath`: `FileNotFoundError` from `build`.
* `notFileOrDir`: `ValueError("Host path must be a file or directory...")`.
* `fileExists`: `FileExistsError`/`NotADirectoryError` from
  `Path.mkdir(parents=True, exist_ok=True)` when the target or one of its
  ancestors exists as a non-directory. -/
inductive CtxError where
  | notRelative (host root : PyPath)
  | duplicateEntry (ctx : PyPath)
  | duplicateMerge (conflicts : List PyPath)
  | invalidContextPath (ctx : PyPath)
  | missingHostPath (host : PyPath)
  | notFileOrDir (host : PyPath)
  | fileExists (p : PyPath)
deriving DecidableEq, Repr

/-- Association-list lookup (first match), modelling `dict.__getitem__` /
`in` on dicts whose keys are unique. -/
def lookup? {α β : Type} [DecidableEq α] : List (α × β) → α → Option β
  | [], _ => none
  | (k₁, v) :: rest, k => if k = k₁ then some v else lookup? rest k

/-- Association-list assignment, modelling `dict.__setitem__`: replace the
value in place when the key is present, append otherwise. -/
def setKey {α β : Type} [DecidableEq α] : List (α × β) → α → β → List (α × β)
  | [], k, v => [(k, v)]
  | (k₁, v₁) :: rest, k, v =>
    if k = k₁ then (k, v) :: rest else (k₁, v₁) :: setKey rest k v

/-- `dict.update`: fold assignments of the right dict over the left. -/
def dictUpdate {α β : Type} [DecidableEq α] (d other : List (α × β)) : List (α × β) :=
  other.foldl (fun acc kv => setKey acc kv.1 kv.2) d

/-- The keys of an association list are pairwise distinct (true of every
state of a Python dict). -/
def keysNodup {α β : Type} (d : List (α × β)) : Prop :=
  (d.map Prod.fst).Nodup

instance {α β : Type} [DecidableEq α] (d : List (α × β)) : Decidable (keysNodup d) := by
  unfold keysNodup
  infer_instance

/-- The `BuildContext` class state: the optional `_context_root` and the
`_context_entries` dict mapping context paths to host paths. -/
structure BuildContext where
  context_root : Option PyPath
  context_entries : List (PyPath × PyPath)
deriving DecidableEq, Repr

/-- `BuildContext.__init__`. -/
def BuildContext.init (root : Option PyPath) : BuildContext :=
  { context_root := root, context_entries := [] }

/-- The context-path computation inside `BuildContext.add_context_entry`
(lines 106-111 of contexts.py): relative to the root when one is set,
otherwise `Path(host_path.name)`. -/
def BuildContext.compute_context_path (c : BuildContext) (host_path : PyPath) :
    Except CtxError PyPath :=
  match c.context_root with
  | some root =>
    match host_path.relativeTo root with
    | some p => Except.ok p
    | none => Except.error (CtxError.notRelative host_path root)
  | none => Except.ok (pathOfName host_path.name)

/-- `BuildContext.add_context_entry`.  Returns the computed context path
(or the raised error) together with the post-state of the object; the
post-state equals the pre-state on both error branches because the Python
code raises before the dict assignment. -/
def BuildContext.add_context_entry (c : BuildContext) (host_path : PyPath) :
    Except CtxError PyPath × BuildContext :=
  let ctxExcept : Except CtxError PyPath :=
    match c.context_root with
    | some root =>
      match host_path.relativeTo root with
      | some p => Except.ok p
      | none => Except.error (CtxError.notRelative host_path root)
    | none => Except.ok (pathOfName host_path.name)
  match ctxExcept with
  | Except.error e => (Except.error e, c)
  | Except.ok ctx_path =>
    match lookup? c.context_entries ctx_path with
    | some existing =>
      if existing = host_path then
        (Except.ok ctx_path,
          { c with context_entries := setKey c.context_entries ctx_path host_path })
      else
        (Except.error (CtxError.duplicateEntry ctx_path), c)
    | none =>
      (Except.ok ctx_path,
        { c with context_entries := setKey c.context_entries ctx_path host_path })

/-- The `diff_collision_paths` computed by `BuildContext.extend`: every
context path registered in both contexts with different host paths
(Python builds a set of strings; the model keeps the structured paths,
ordered as in the receiver's dict). -/
def mergeConflicts (c other : BuildContext) : List PyPath :=
  (c.context_entries.filter
    (fun kv =>
      match lookup? other.context_entries kv.1 with
      | some v => decide (v ≠ kv.2)
      | none => false)).map Prod.fst

/-- `BuildContext.extend`.  Collects every context path registered in both
contexts with different host paths; raises (carrying all of them) when
that set is non-empty, before any mutation; otherwise updates the
receiver's dict with the other's entries. -/
def BuildContext.extend (c other : BuildContext) :
    Except CtxError Unit × BuildContext :=
  if mergeConflicts c other = [] then
    (Except.ok (),
      { c with context_entries := dictUpdate c.context_entries other.context_entries })
  else
    (Except.error (CtxError.duplicateMerge (mergeConflicts c other)), c)

/-- A host filesystem node: a regular file with byte content, a
directory, or any other kind of entry (socket, device node, broken
symlink, ...) for which `Path.is_file` and `Path.is_dir` are both false. -/
inductive FSNode where
  | file (content : List Nat)
  | dir
  | other
deriving DecidableEq, Repr

/-- The host filesystem: a finite map from paths to nodes, as an
association list with unique keys. -/
abbrev FS := List (PyPath × FSNode)

/-- `Path.exists` / `dict` lookup on the filesystem. -/
def fsGet (fs : FS) (p : PyPath) : Option FSNode :=
  lookup? fs p

/-- The option holds a node that is a regular file or a directory. -/
def isFileOrDir : Option FSNode → Bool
  | some (FSNode.file _) => true
  | some FSNode.dir => true
  | _ => false

/-- The option is absent or a directory (what
`mkdir(parents=True, exist_ok=True)` tolerates along the chain). -/
def noneOrDir : Option FSNode → Bool
  | none => true
  | some FSNode.dir => true
  | _ => false

/-- The strict ancestors of a path, shortest first (including the
root/empty path). -/
def ancestors (p : PyPath) : List PyPath :=
  (List.range p.parts.length).map
    (fun i => { absolute := p.absolute, parts := p.parts.take i })

/-- Create every missing element of a directory chain, shortest first. -/
def mkdirFold (chain : List PyPath) (fs : FS) : FS :=
  chain.foldl
    (fun acc q => if (fsGet acc q).isSome then acc else setKey acc q FSNode.dir) fs

/-- `Path.mkdir(parents=True, exist_ok=True)`: fails when the target or
one of its ancestors exists as a non-directory, otherwise creates every
missing element of the chain as a directory. -/
def mkdirParents (fs : FS) (p : PyPath) : Except CtxError FS :=
  match (ancestors p ++ [p]).find? (fun q => !(noneOrDir (fsGet fs q))) with
  | some q => Except.error (CtxError.fileExists q)
  | none => Except.ok (mkdirFold (ancestors p ++ [p]) fs)

/-- `shutil.copy2(src, dst)` for a regular-file `src`: when `dst` is an
existing directory the file is copied to `dst/src.name`, otherwise the
destination is created or overwritten with the source's content.
(Metadata is below the granularity of the model.) -/
def copy2 (fs : FS) (src dst : PyPath) : FS :=
  match fsGet fs src with
  | some (FSNode.file content) =>
    if fsGet fs dst = some FSNode.dir then
      setKey fs (dst.join (pathOfName src.name)) (FSNode.file content)
    else
      setKey fs dst (FSNode.file content)
  | some FSNode.dir => fs
  | some FSNode.other => fs
  | none => fs

/-- Relocate a path under `src` to the corresponding path under `dst`. -/
def rebase (src dst q : PyPath) : PyPath :=
  dst.join { absolute := false, parts := q.parts.drop src.parts.length }

/-- Fold step of `copytree`: copy one filesystem entry when it lies in the
source tree. -/
def copytreeAux (src dst : PyPath) (l : List (PyPath × FSNode)) (acc : FS) : FS :=
  l.foldl
    (fun a kv => if underPath src kv.1 then setKey a (rebase src dst kv.1) kv.2 else a)
    acc

/-- `shutil.copytree(src, dst, dirs_exist_ok=True)` for a directory
`src`: every entry of the source tree (including `src` itself) is
reproduced at the corresponding path under `dst`, overwriting existing
files and merging into existing directories. -/
def copytree (fs : FS) (src dst : PyPath) : FS :=
  copytreeAux src dst fs fs

/-- The body of the per-entry loop of `BuildContext.build`: validate the
context path, require the host path to exist, then copy a file or a tree
(creating the destination's parent directories first), or fail on any
other node kind. -/
def buildStep (context_root : PyPath) (fs : FS) (entry : PyPath × PyPath) :
    Except CtxError FS :=
  let ctx_path := entry.1
  let host_path := entry.2
  if ctx_path.absolute || ctx_path.parts.contains ".." then
    Except.error (CtxError.invalidContextPath ctx_path)
  else if (fsGet fs host_path).isNone then
    Except.error (CtxError.missingHostPath host_path)
  else
    let dst_path := context_root.join ctx_path
    match fsGet fs host_path with
    | some (FSNode.file _) =>
      match mkdirParents fs dst_path.parent with
      | Except.error e => Except.error e
      | Except.ok fs₁ => Except.ok (copy2 fs₁ host_path dst_path)
    | some FSNode.dir =>
      match mkdirParents fs dst_path.parent with
      | Except.error e => Except.error e
      | Except.ok fs₁ => Except.ok (copytree fs₁ host_path dst_path)
    | some FSNode.other => Except.error (CtxError.notFileOrDir host_path)
    | none => Except.error (CtxError.missingHostPath host_path)

/-- The entry loop of `BuildContext.build`, in dict (insertion) order; an
exception aborts the loop, keeping the effects of the entries already
processed. -/
def buildEntries (context_root : PyPath) (entries : List (PyPath × PyPath)) (fs : FS) :
    Except CtxError Unit × FS :=
  match entries with
  | [] => (Except.ok (), fs)
  | e :: rest =>
    match buildStep context_root fs e with
    | Except.error err => (Except.error err, fs)
    | Except.ok fs₁ => buildEntries context_root rest fs₁

/-- `BuildContext.build`: create the target directory (with parents),
then materialize every registered entry. -/
def BuildContext.build (c : BuildContext) (fs : FS) (context_path : PyPath) :
    Except CtxError Unit × FS :=
  match mkdirParents fs context_path with
  | Except.error e => (Except.error e, fs)
  | Except.ok fs₀ => buildEntries context_path c.context_entries fs₀

/-- `Path.resolve` modelled for absolute, symlink-free paths: `..`
components collapse lexically upward (at the root they vanish). -/
def resolveAbs (p : PyPath) : PyPath :=
  { absolute := true
    parts := p.parts.foldl
      (fun acc c => if c = ".." then acc.dropLast else acc ++ [c]) [] }

/-- The part of `DockerBuilder.build` that chooses and prepares the
directory handed to the container engine as the build context
(`src/pythainer/builders/__init__.py`, lines 513-518): when
`docker_context` is supplied it is resolved and used as-is; otherwise
`<temp_path>/context` is created and the builder's `BuildContext` is
materialized into it.  The returned triple is (result, filesystem, the
directory passed to the engine's build command); Dockerfile generation
and the engine invocation itself are out of scope. -/
def dockerBuilderBuild (context : BuildContext) (fs : FS) (temp_path : PyPath)
    (docker_context : Option PyPath) : Except CtxError Unit × FS × PyPath :=
  match docker_context with
  | some p => (Except.ok (), fs, resolveAbs p)
  | none =>
    let context_path := temp_path.join (pathOfName "context")
    match mkdirParents fs context_path with
    | Except.error e => (Except.error e, fs, context_path)
    | Except.ok fs₁ =>
      match BuildContext.build context fs₁ context_path with
      | (res, fs₂) => (res, fs₂, context_path)

/-- The destination directory and all its ancestors exist as directories. -/
def destReady (fs : FS) (dest : PyPath) : Prop :=
  (∀ q ∈ ancestors dest, fsGet fs q = some FSNode.dir) ∧ fsGet fs dest = some FSNode.dir

/-- The build contexts reachable through the public API: start from
`BuildContext.__init__` and apply any sequence of successful
`add_context_entry` and `extend` operations (a failed operation raises
before mutating, so it leaves the same state).  The parameter `P`
restricts the host paths passed to `add_context_entry`. -/
inductive Reachable (P : PyPath → Prop) : BuildContext → Prop where
  | init (root : Option PyPath) : Reachable P (BuildContext.init root)
  | add (c : BuildContext) (host p : PyPath) (c₁ : BuildContext) :
      Reachable P c → P host →
      c.add_context_entry host = (Except.ok p, c₁) → Reachable P c₁
  | ext (c other c₁ : BuildContext) : Reachable P c → Reachable P other →
      c.extend other = (Except.ok (), c₁) → Reachable P c₁

section AssocLemmas

variable {α β : Type} [DecidableEq α]

theorem lookup_setKey (d : List (α × β)) (k : α) (v : β) (q : α) :
    lookup? (setKey d k v) q = if q = k then some v else lookup? d q := by
  induction d with
  | nil => simp [setKey, lookup?]
  | cons kv rest ih =>
    obtain ⟨k₁, v₁⟩ := kv
    by_cases hk : k = k₁
    · subst hk
      by_cases hq : q = k <;> simp [setKey, lookup?, hq]
    · by_cases hq : q = k₁
      · subst hq
        have hqk : ¬ q = k := fun h => hk h.symm
        simp [setKey, lookup?, hk, hqk]
      · simp [setKey, lookup?, hk, hq, ih]

theorem setKey_self (d : List (α × β)) (k : α) (v : β)
    (h : lookup? d k = some v) : setKey d k v = d := by
  induction d with
  | nil => simp [lookup?] at h
  | cons kv rest ih =>
    obtain ⟨k₁, v₁⟩ := kv
    by_cases hk : k = k₁
    · subst hk
      rw [lookup?, if_pos rfl] at h
      injection h with h
      subst h
      simp [setKey]
    · rw [lookup?, if_neg hk] at h
      simp [setKey, hk, ih h]

theorem mem_setKey (d : List (α × β)) (k : α) (v : β) (x : α × β)
    (h : x ∈ setKey d k v) : x = (k, v) ∨ x ∈ d := by
  induction d with
  | nil =>
    simp only [setKey, List.mem_singleton] at h
    exact Or.inl h
  | cons kv rest ih =>
    obtain ⟨k₁, v₁⟩ := kv
    by_cases hk : k = k₁
    · subst hk
      have hcons : x ∈ (k, v) :: rest := by simpa [setKey] using h
      rcases List.mem_cons.mp hcons with h | h
      · exact Or.inl h
      · exact Or.inr (List.mem_cons_of_mem _ h)
    · simp only [setKey, if_neg hk, List.mem_cons] at h
      rcases h with h | h
      · exact Or.inr (h ▸ List.mem_cons_self _ _)
      · rcases ih h with h₁ | h₁
        · exact Or.inl h₁
        · exact Or.inr (List.mem_cons_of_mem _ h₁)

theorem keys_setKey_mem (d : List (α × β)) (k : α) (v : β)
    (h : k ∈ d.map Prod.fst) :
    (setKey d k v).map Prod.fst = d.map Prod.fst := by
  induction d with
  | nil => simp at h
  | cons kv rest ih =>
    obtain ⟨k₁, v₁⟩ := kv
    by_cases hk : k = k₁
    · subst hk
      simp [setKey]
    · simp only [List.map_cons, List.mem_cons] at h
      rcases h with h | h
      · exact absurd h hk
      · simp [setKey, hk, ih h]

theorem keys_setKey_not_mem (d : List (α × β)) (k : α) (v : β)
    (h : k ∉ d.map Prod.fst) :
    (setKey d k v).map Prod.fst = d.map Prod.fst ++ [k] := by
  induction d with
  | nil => simp [setKey]
  | cons kv rest ih =>
    obtain ⟨k₁, v₁⟩ := kv
    simp only [List.map_cons, List.mem_cons] at h
    push_neg at h
    simp [setKey, h.1, ih h.2]

theorem keysNodup_setKey (d : List (α × β)) (k : α) (v : β)
    (h : keysNodup d) : keysNodup (setKey d k v) := by
  unfold keysNodup at h ⊢
  by_cases hk : k ∈ d.map Prod.fst
  · rw [keys_setKey_mem d k v hk]
    exact h
  · rw [keys_setKey_not_mem d k v hk]
    rw [List.nodup_append]
    exact ⟨h, List.nodup_singleton k, by simpa using hk⟩

theorem lookup_mem (d : List (α × β)) (q : α) (v : β)
    (h : lookup? d q = some v) : (q, v) ∈ d := by
  induction d with
  | nil => simp [lookup?] at h
  | cons kv rest ih =>
    obtain ⟨k₁, v₁⟩ := kv
    by_cases hk : q = k₁
    · subst hk
      rw [lookup?, if_pos rfl] at h
      injection h with h
      subst h
      exact List.mem_cons_self _ _
    · rw [lookup?, if_neg hk] at h
      exact List.mem_cons_of_mem _ (ih h)

theorem lookup_isSome_of_mem (d : List (α × β)) (x : α × β) (h : x ∈ d) :
    (lookup? d x.1).isSome := by
  induction d with
  | nil => simp at h
  | cons kv rest ih =>
    obtain ⟨k₁, v₁⟩ := kv
    rcases List.mem_cons.mp h with h | h
    · subst h
      simp [lookup?]
    · by_cases hk : x.1 = k₁
      · simp [lookup?, hk]
      · simp only [lookup?, if_neg hk]
        exact ih h

theorem lookup_none_of_not_key (d : List (α × β)) (q : α)
    (h : ∀ kv ∈ d, kv.1 ≠ q) : lookup? d q = none := by
  induction d with
  | nil => simp [lookup?]
  | cons kv rest ih =>
    obtain ⟨k₁, v₁⟩ := kv
    have h₁ : k₁ ≠ q := h (k₁, v₁) (List.mem_cons_self _ _)
    have hne : ¬ q = k₁ := fun hq => h₁ hq.symm
    rw [lookup?, if_neg hne]
    exact ih (fun kv hkv => h kv (List.mem_cons_of_mem _ hkv))

theorem mem_lookup_of_nodup (d : List (α × β)) (q : α) (v : β)
    (hnd : keysNodup d) (h : (q, v) ∈ d) : lookup? d q = some v := by
  induction d with
  | nil => simp at h
  | cons kv rest ih =>
    obtain ⟨k₁, v₁⟩ := kv
    unfold keysNodup at hnd
    simp only [List.map_cons, List.nodup_cons] at hnd
    rcases List.mem_cons.mp h with h | h
    · rw [Prod.mk.injEq] at h
      obtain ⟨h1, h2⟩ := h
      subst h1
      subst h2
      simp [lookup?]
    · have hq : ¬ q = k₁ := by
        intro hq
        have hmem : q ∈ List.map Prod.fst rest := List.mem_map_of_mem Prod.fst h
        rw [hq] at hmem
        exact hnd.1 hmem
      rw [lookup?, if_neg hq]
      exact ih hnd.2 h

end AssocLemmas

section DictUpdateLemmas

variable {α β : Type} [DecidableEq α]

theorem lookup_dictUpdate_of_none (d o : List (α × β)) (k : α)
    (h : lookup? o k = none) :
    lookup? (dictUpdate d o) k = lookup? d k := by
  induction o generalizing d with
  | nil => simp [dictUpdate]
  | cons kv rest ih =>
    obtain ⟨k₁, v₁⟩ := kv
    simp only [lookup?] at h
    by_cases hk : k = k₁
    · rw [if_pos hk] at h
      exact absurd h (by simp)
    · rw [if_neg hk] at h
      show lookup? (dictUpdate (setKey d k₁ v₁) rest) k = lookup? d k
      rw [ih (setKey d k₁ v₁) h, lookup_setKey, if_neg hk]

theorem lookup_dictUpdate_of_some (d o : List (α × β)) (k : α) (v : β)
    (hnd : keysNodup o) (h : lookup? o k = some v) :
    lookup? (dictUpdate d o) k = some v := by
  induction o generalizing d with
  | nil => simp [lookup?] at h
  | cons kv rest ih =>
    obtain ⟨k₁, v₁⟩ := kv
    unfold keysNodup at hnd
    simp only [List.map_cons, List.nodup_cons] at hnd
    simp only [lookup?] at h
    show lookup? (dictUpdate (setKey d k₁ v₁) rest) k = some v
    by_cases hk : k = k₁
    · rw [if_pos hk] at h
      injection h with h
      subst h
      subst hk
      have hnone : lookup? rest k = none := by
        apply lookup_none_of_not_key
        intro kv hkv hq
        exact hnd.1 (hq ▸ List.mem_map_of_mem Prod.fst hkv)
      rw [lookup_dictUpdate_of_none _ _ _ hnone, lookup_setKey, if_pos rfl]
    · rw [if_neg hk] at h
      exact ih (setKey d k₁ v₁) hnd.2 h

theorem mem_dictUpdate (d o : List (α × β)) (x : α × β)
    (h : x ∈ dictUpdate d o) : x ∈ d ∨ x ∈ o := by
  induction o generalizing d with
  | nil => exact Or.inl h
  | cons kv rest ih =>
    obtain ⟨k₁, v₁⟩ := kv
    have h' : x ∈ dictUpdate (setKey d k₁ v₁) rest := h
    rcases ih (setKey d k₁ v₁) h' with h₁ | h₁
    · rcases mem_setKey d k₁ v₁ x h₁ with h₂ | h₂
      · exact Or.inr (h₂ ▸ List.mem_cons_self _ _)
      · exact Or.inl h₂
    · exact Or.inr (List.mem_cons_of_mem _ h₁)

theorem keysNodup_dictUpdate (d o : List (α × β))
    (h : keysNodup d) : keysNodup (dictUpdate d o) := by
  induction o generalizing d with
  | nil => exact h
  | cons kv rest ih =>
    exact ih (setKey d kv.1 kv.2) (keysNodup_setKey d kv.1 kv.2 h)

end DictUpdateLemmas

section PartsLeLemmas

theorem partsLe_refl (l : List String) : partsLe l l = true := by
  induction l with
  | nil => rfl
  | cons a as ih => simp [partsLe, ih]

theorem partsLe_iff_append (l₁ l : List String) :
    partsLe l₁ l = true ↔ ∃ t, l = l₁ ++ t := by
  induction l₁ generalizing l with
  | nil =>
    simp [partsLe]
  | cons a as ih =>
    cases l with
    | nil =>
      simp [partsLe]
    | cons b bs =>
      simp only [partsLe, Bool.and_eq_true, decide_eq_true_eq, ih, List.cons_append,
        List.cons.injEq]
      constructor
      · rintro ⟨hab, t, ht⟩
        exact ⟨t, hab.symm, ht⟩
      · rintro ⟨t, hab, ht⟩
        exact ⟨hab.symm, t, ht⟩

theorem partsLe_append (l t : List String) : partsLe l (l ++ t) = true :=
  (partsLe_iff_append l (l ++ t)).mpr ⟨t, rfl⟩

theorem partsLe_length (l₁ l : List String) (h : partsLe l₁ l = true) :
    l₁.length ≤ l.length := by
  obtain ⟨t, ht⟩ := (partsLe_iff_append l₁ l).mp h
  subst ht
  simp

theorem partsLe_drop (l₁ l : List String) (h : partsLe l₁ l = true) :
    l = l₁ ++ l.drop l₁.length := by
  obtain ⟨t, ht⟩ := (partsLe_iff_append l₁ l).mp h
  subst ht
  simp

theorem partsLe_trans (l₁ l₂ l₃ : List String) (h₁ : partsLe l₁ l₂ = true)
    (h₂ : partsLe l₂ l₃ = true) : partsLe l₁ l₃ = true := by
  obtain ⟨t, ht⟩ := (partsLe_iff_append l₁ l₂).mp h₁
  obtain ⟨u, hu⟩ := (partsLe_iff_append l₂ l₃).mp h₂
  subst ht
  subst hu
  exact (partsLe_iff_append _ _).mpr ⟨t ++ u, by simp⟩

theorem partsLe_antisymm (l₁ l₂ : List String) (h₁ : partsLe l₁ l₂ = true)
    (h₂ : partsLe l₂ l₁ = true) : l₁ = l₂ := by
  obtain ⟨t, ht⟩ := (partsLe_iff_append l₁ l₂).mp h₁
  have hlen := partsLe_length l₂ l₁ h₂
  subst ht
  simp only [List.length_append] at hlen
  have : t.length = 0 := by omega
  rw [List.length_eq_zero] at this
  subst this
  simp

theorem partsLe_or (l l₁ l₂ : List String) (h₁ : partsLe l₁ l = true)
    (h₂ : partsLe l₂ l = true) :
    partsLe l₁ l₂ = true ∨ partsLe l₂ l₁ = true := by
  induction l generalizing l₁ l₂ with
  | nil =>
    cases l₁ with
    | nil => exact Or.inl rfl
    | cons a as => simp [partsLe] at h₁
  | cons c cs ih =>
    cases l₁ with
    | nil => exact Or.inl rfl
    | cons a as =>
      cases l₂ with
      | nil => exact Or.inr rfl
      | cons b bs =>
        simp only [partsLe, Bool.and_eq_true, decide_eq_true_eq] at h₁ h₂
        rcases ih as bs h₁.2 h₂.2 with h | h
        · exact Or.inl (by simp [partsLe, h₁.1.trans h₂.1.symm, h])
        · exact Or.inr (by simp [partsLe, h₂.1.trans h₁.1.symm, h])

theorem partsLe_take (l : List String) (j : Nat) :
    partsLe (l.take j) l = true := by
  have h := partsLe_append (l.take j) (l.drop j)
  rwa [List.take_append_drop] at h

end PartsLeLemmas

section PathLemmas

theorem relativeTo_absolute (p root q : PyPath) (h : p.relativeTo root = some q) :
    q.absolute = false := by
  unfold PyPath.relativeTo at h
  split at h
  · injection h with h
    subst h
    rfl
  · exact absurd h (by simp)

theorem relativeTo_parts (p root q : PyPath) (h : p.relativeTo root = some q) :
    q.parts = p.parts.drop root.parts.length := by
  unfold PyPath.relativeTo at h
  split at h
  · injection h with h
    subst h
    rfl
  · exact absurd h (by simp)

theorem relativeTo_none_iff (p root : PyPath) :
    p.relativeTo root = none ↔
      ¬(p.absolute = root.absolute ∧ partsLe root.parts p.parts = true) := by
  unfold PyPath.relativeTo
  split <;> rename_i hcond
  · simp [hcond]
  · simp [hcond]

theorem relativeTo_mem (p root q : PyPath) (h : p.relativeTo root = some q) :
    ∀ s ∈ q.parts, s ∈ p.parts := by
  intro s hs
  rw [relativeTo_parts p root q h] at hs
  exact List.mem_of_mem_drop hs

theorem pathOfName_absolute (s : String) : (pathOfName s).absolute = false := rfl

theorem pathOfName_mem (s t : String) (h : t ∈ (pathOfName s).parts) : t = s := by
  unfold pathOfName at h
  split at h <;> simp_all

theorem name_mem (p : PyPath) (h : p.parts ≠ []) : p.name ∈ p.parts := by
  unfold PyPath.name
  rw [List.getLast?_eq_getLast p.parts h]
  exact List.getLast_mem h

theorem join_rel (p q : PyPath) (h : q.absolute = false) :
    p.join q = { absolute := p.absolute, parts := p.parts ++ q.parts } := by
  unfold PyPath.join
  rw [h]
  simp

theorem join_nil (p : PyPath) :
    p.join { absolute := false, parts := [] } = p := by
  unfold PyPath.join
  simp

theorem underPath_refl (p : PyPath) : underPath p p = true := by
  unfold underPath
  simp [partsLe_refl]

theorem underPath_iff (root q : PyPath) :
    underPath root q = true ↔
      root.absolute = q.absolute ∧ partsLe root.parts q.parts = true := by
  unfold underPath
  simp

theorem underPath_join_rel (p q : PyPath) (h : q.absolute = false) :
    underPath p (p.join q) = true := by
  rw [join_rel p q h, underPath_iff]
  exact ⟨rfl, partsLe_append _ _⟩

theorem underPath_trans (a b c : PyPath) (h₁ : underPath a b = true)
    (h₂ : underPath b c = true) : underPath a c = true := by
  rw [underPath_iff] at h₁ h₂ ⊢
  exact ⟨h₁.1.trans h₂.1, partsLe_trans _ _ _ h₁.2 h₂.2⟩

theorem underPath_antisymm (a b : PyPath) (h₁ : underPath a b = true)
    (h₂ : underPath b a = true) : a = b := by
  rw [underPath_iff] at h₁ h₂
  obtain ⟨ha, hp⟩ := h₁
  obtain ⟨hb, hq⟩ := h₂
  cases a with
  | mk aa ap =>
    cases b with
    | mk ba bp =>
      simp only at ha hp hb hq
      simp only [PyPath.mk.injEq]
      exact ⟨ha, partsLe_antisymm _ _ hp hq⟩

theorem underPath_comparable (a b q : PyPath) (h₁ : underPath a q = true)
    (h₂ : underPath b q = true) :
    underPath a b = true ∨ underPath b a = true := by
  rw [underPath_iff] at h₁ h₂
  rcases partsLe_or q.parts a.parts b.parts h₁.2 h₂.2 with h | h
  · exact Or.inl ((underPath_iff a b).mpr ⟨h₁.1.trans h₂.1.symm, h⟩)
  · exact Or.inr ((underPath_iff b a).mpr ⟨h₂.1.trans h₁.1.symm, h⟩)

theorem underPath_length (a q : PyPath) (h : underPath a q = true) :
    a.parts.length ≤ q.parts.length := by
  rw [underPath_iff] at h
  exact partsLe_length _ _ h.2

theorem mem_ancestors (p q : PyPath) :
    q ∈ ancestors p ↔
      ∃ i < p.parts.length, q = { absolute := p.absolute, parts := p.parts.take i } := by
  unfold ancestors
  simp only [List.mem_map, List.mem_range]
  constructor
  · rintro ⟨i, hi, rfl⟩
    exact ⟨i, hi, rfl⟩
  · rintro ⟨i, hi, rfl⟩
    exact ⟨i, hi, rfl⟩

theorem mem_ancestors_length (p q : PyPath) (h : q ∈ ancestors p) :
    q.parts.length < p.parts.length := by
  rw [mem_ancestors] at h
  obtain ⟨i, hi, rfl⟩ := h
  simp only [List.length_take]
  omega

theorem ancestors_absolute (p q : PyPath) (h : q ∈ ancestors p) :
    q.absolute = p.absolute := by
  rw [mem_ancestors] at h
  obtain ⟨i, _, rfl⟩ := h
  rfl

theorem underPath_of_mem_ancestors (p q : PyPath) (h : q ∈ ancestors p) :
    underPath q p = true := by
  rw [mem_ancestors] at h
  obtain ⟨i, _, rfl⟩ := h
  rw [underPath_iff]
  exact ⟨rfl, partsLe_take _ _⟩

theorem chain_parent (p : PyPath) (h : p.parts ≠ []) :
    ancestors p.parent ++ [p.parent] = ancestors p := by
  obtain ⟨n, hn⟩ : ∃ n, p.parts.length = n + 1 :=
    ⟨p.parts.length - 1, by have := List.length_pos.mpr h; omega⟩
  have hdl : p.parent.parts = p.parts.take n := by
    show p.parts.dropLast = p.parts.take n
    rw [List.dropLast_eq_take, hn]
    simp
  have habs : p.parent.absolute = p.absolute := rfl
  unfold ancestors
  simp only [hdl, habs]
  have hlen : (p.parts.take n).length = n := by
    rw [List.length_take]
    omega
  rw [hlen, hn, List.range_succ, List.map_append]
  have hpar : p.parent = { absolute := p.absolute, parts := p.parts.take n } := by
    unfold PyPath.parent
    rw [show p.parts.dropLast = p.parts.take n from hdl]
  congr 1
  · apply List.map_congr_left
    intro i hi
    rw [List.mem_range] at hi
    have htt : List.take i (List.take n p.parts) = List.take i p.parts := by
      rw [List.take_take]
      congr 1
      omega
    rw [htt]
  · rw [hpar]
    simp

theorem mem_ancestors_append (pabs : Bool) (pp cp : List String) (q : PyPath)
    (h : q ∈ ancestors { absolute := pabs, parts := pp ++ cp }) :
    q ∈ ancestors { absolute := pabs, parts := pp } ∨
      ∃ j < cp.length, q = { absolute := pabs, parts := pp ++ cp.take j } := by
  rw [mem_ancestors] at h
  obtain ⟨i, hi, rfl⟩ := h
  simp only [List.length_append] at hi
  by_cases hle : i < pp.length
  · left
    rw [mem_ancestors]
    exact ⟨i, hle, by simp [List.take_append_of_le_length (by omega : i ≤ pp.length)]⟩
  · right
    push_neg at hle
    refine ⟨i - pp.length, by omega, ?_⟩
    simp only [PyPath.mk.injEq, true_and]
    have hi2 : i = pp.length + (i - pp.length) := by omega
    conv_lhs => rw [hi2]
    rw [List.take_append]

theorem rebase_self (src dst : PyPath) :
    rebase src dst src = dst := by
  unfold rebase
  rw [List.drop_length]
  exact join_nil dst

theorem rebase_parts (src dst r : PyPath) :
    rebase src dst r =
      { absolute := dst.absolute, parts := dst.parts ++ r.parts.drop src.parts.length } := by
  unfold rebase
  exact join_rel _ _ rfl

theorem underPath_rebase (src dst r : PyPath) :
    underPath dst (rebase src dst r) = true := by
  unfold rebase
  exact underPath_join_rel _ _ rfl

theorem rebase_inj (src dst r r' : PyPath) (h : underPath src r = true)
    (h' : underPath src r' = true) (heq : rebase src dst r = rebase src dst r') :
    r = r' := by
  rw [underPath_iff] at h h'
  rw [rebase_parts src dst r, rebase_parts src dst r'] at heq
  simp only [PyPath.mk.injEq, true_and] at heq
  have hdrop := List.append_cancel_left heq
  have hr := partsLe_drop src.parts r.parts h.2
  have hr' := partsLe_drop src.parts r'.parts h'.2
  have habs : r.absolute = r'.absolute := h.1.symm.trans h'.1
  have hparts : r.parts = r'.parts := by
    calc r.parts = src.parts ++ r.parts.drop src.parts.length := hr
    _ = src.parts ++ r'.parts.drop src.parts.length := by rw [hdrop]
    _ = r'.parts := hr'.symm
  cases r with
  | mk ra rp =>
    cases r' with
    | mk rb rp' =>
      simp only at habs hparts
      rw [habs, hparts]

end PathLemmas

section FSLemmas

theorem fsGet_setKey (fs : FS) (k : PyPath) (v : FSNode) (q : PyPath) :
    fsGet (setKey fs k v) q = if q = k then some v else fsGet fs q :=
  lookup_setKey fs k v q

theorem fsGet_mkdirFold (chain : List PyPath) (fs : FS) (q : PyPath) :
    fsGet (mkdirFold chain fs) q =
      if q ∈ chain ∧ fsGet fs q = none then some FSNode.dir else fsGet fs q := by
  induction chain generalizing fs with
  | nil => simp [mkdirFold]
  | cons a rest ih =>
    have hstep : mkdirFold (a :: rest) fs =
        mkdirFold rest (if (fsGet fs a).isSome then fs else setKey fs a FSNode.dir) := rfl
    rw [hstep]
    by_cases ha : (fsGet fs a).isSome
    · rw [if_pos ha, ih]
      by_cases hq : fsGet fs q = none
      · by_cases hmem : q ∈ rest
        · simp [hq, hmem]
        · by_cases hqa : q = a
          · subst hqa
            rw [hq] at ha
            simp at ha
          · simp [hq, hmem, hqa]
      · simp [hq]
    · rw [if_neg ha]
      have hfa : fsGet fs a = none := by
        cases hfa : fsGet fs a with
        | none => rfl
        | some n => rw [hfa] at ha
                    simp at ha
      rw [ih]
      by_cases hqa : q = a
      · subst hqa
        rw [fsGet_setKey, if_pos rfl]
        simp [hfa]
      · rw [fsGet_setKey, if_neg hqa]
        by_cases hmem : q ∈ rest <;> by_cases hq : fsGet fs q = none <;>
          simp [hmem, hq, hqa]

theorem keysNodup_mkdirFold (chain : List PyPath) (fs : FS) (h : keysNodup fs) :
    keysNodup (mkdirFold chain fs) := by
  induction chain generalizing fs with
  | nil => exact h
  | cons a rest ih =>
    have hstep : mkdirFold (a :: rest) fs =
        mkdirFold rest (if (fsGet fs a).isSome then fs else setKey fs a FSNode.dir) := rfl
    rw [hstep]
    by_cases ha : (fsGet fs a).isSome
    · rw [if_pos ha]
      exact ih fs h
    · rw [if_neg ha]
      exact ih _ (keysNodup_setKey fs a FSNode.dir h)

theorem mkdirParents_ok (fs : FS) (p : PyPath)
    (h : ∀ q ∈ ancestors p ++ [p], noneOrDir (fsGet fs q) = true) :
    mkdirParents fs p = Except.ok (mkdirFold (ancestors p ++ [p]) fs) := by
  unfold mkdirParents
  have hfind : (ancestors p ++ [p]).find? (fun q => !(noneOrDir (fsGet fs q))) = none := by
    rw [List.find?_eq_none]
    intro q hq
    simp [h q hq]
  rw [hfind]

theorem mkdirParents_ok_inv (fs : FS) (p : PyPath) (fs' : FS)
    (h : mkdirParents fs p = Except.ok fs') :
    fs' = mkdirFold (ancestors p ++ [p]) fs ∧
      ∀ q ∈ ancestors p ++ [p], noneOrDir (fsGet fs q) = true := by
  unfold mkdirParents at h
  cases hfind : (ancestors p ++ [p]).find? (fun q => !(noneOrDir (fsGet fs q))) with
  | some q =>
    rw [hfind] at h
    exact absurd h (by simp)
  | none =>
    rw [hfind] at h
    injection h with h
    refine ⟨h.symm, ?_⟩
    intro q hq
    have hfq := List.find?_eq_none.mp hfind q hq
    simpa using hfq

theorem copy2_eq (fs : FS) (src dst : PyPath) (content : List Nat)
    (hsrc : fsGet fs src = some (FSNode.file content))
    (hdst : fsGet fs dst ≠ some FSNode.dir) :
    copy2 fs src dst = setKey fs dst (FSNode.file content) := by
  unfold copy2
  split
  · rename_i c heq
    rw [hsrc] at heq
    injection heq with heq
    injection heq with heq
    subst heq
    rw [if_neg hdst]
  · rename_i heq
    rw [hsrc] at heq
    simp at heq
  · rename_i heq
    rw [hsrc] at heq
    simp at heq
  · rename_i heq
    rw [hsrc] at heq
    simp at heq

theorem copy2_changes (fs : FS) (src dst q : PyPath)
    (h : fsGet (copy2 fs src dst) q ≠ fsGet fs q) :
    q = dst ∨ q = dst.join (pathOfName src.name) := by
  unfold copy2 at h
  split at h
  · rename_i content heq
    by_cases hdst : fsGet fs dst = some FSNode.dir
    · rw [if_pos hdst, fsGet_setKey] at h
      by_cases hq : q = dst.join (pathOfName src.name)
      · exact Or.inr hq
      · rw [if_neg hq] at h
        exact absurd rfl h
    · rw [if_neg hdst, fsGet_setKey] at h
      by_cases hq : q = dst
      · exact Or.inl hq
      · rw [if_neg hq] at h
        exact absurd rfl h
  · exact absurd rfl h
  · exact absurd rfl h
  · exact absurd rfl h

theorem keysNodup_copy2 (fs : FS) (src dst : PyPath) (h : keysNodup fs) :
    keysNodup (copy2 fs src dst) := by
  unfold copy2
  split
  · rename_i content heq
    by_cases hdst : fsGet fs dst = some FSNode.dir
    · rw [if_pos hdst]
      exact keysNodup_setKey _ _ _ h
    · rw [if_neg hdst]
      exact keysNodup_setKey _ _ _ h
  · exact h
  · exact h
  · exact h

theorem copytreeAux_untouched (src dst : PyPath) (l : List (PyPath × FSNode)) (acc : FS)
    (q : PyPath)
    (h : ∀ kv ∈ l, underPath src kv.1 = true → rebase src dst kv.1 ≠ q) :
    fsGet (copytreeAux src dst l acc) q = fsGet acc q := by
  induction l generalizing acc with
  | nil => rfl
  | cons kv rest ih =>
    have hstep : copytreeAux src dst (kv :: rest) acc =
        copytreeAux src dst rest
          (if underPath src kv.1 then setKey acc (rebase src dst kv.1) kv.2 else acc) := rfl
    rw [hstep]
    by_cases hu : underPath src kv.1 = true
    · rw [if_pos hu]
      rw [ih _ (fun kv' h' hu' => h kv' (List.mem_cons_of_mem _ h') hu')]
      rw [fsGet_setKey, if_neg]
      intro hq
      exact h kv (List.mem_cons_self _ _) hu hq.symm
    · rw [if_neg hu]
      exact ih _ (fun kv' h' hu' => h kv' (List.mem_cons_of_mem _ h') hu')

theorem copytreeAux_correct (src dst : PyPath) (l : List (PyPath × FSNode)) (acc : FS)
    (r : PyPath) (n : FSNode)
    (hnd : keysNodup l) (hmem : (r, n) ∈ l) (hu : underPath src r = true) :
    fsGet (copytreeAux src dst l acc) (rebase src dst r) = some n := by
  induction l generalizing acc with
  | nil => simp at hmem
  | cons kv rest ih =>
    unfold keysNodup at hnd
    simp only [List.map_cons, List.nodup_cons] at hnd
    have hstep : copytreeAux src dst (kv :: rest) acc =
        copytreeAux src dst rest
          (if underPath src kv.1 then setKey acc (rebase src dst kv.1) kv.2 else acc) := rfl
    rcases List.mem_cons.mp hmem with hh | hh
    · have hk : kv.1 = r := by rw [← hh]
      have hv : kv.2 = n := by rw [← hh]
      rw [hstep, hk, hv, if_pos hu]
      rw [copytreeAux_untouched src dst rest _ _ ?hunt]
      · rw [fsGet_setKey, if_pos rfl]
      case hunt =>
        intro kv' h' hu' heq
        have hk' : kv'.1 = r := rebase_inj src dst _ _ hu' hu heq
        apply hnd.1
        rw [hk]
        rw [← hk']
        exact List.mem_map_of_mem Prod.fst h'
    · rw [hstep]
      by_cases hukv : underPath src kv.1 = true
      · rw [if_pos hukv]
        exact ih _ hnd.2 hh
      · rw [if_neg hukv]
        exact ih _ hnd.2 hh

theorem copytreeAux_changes (src dst : PyPath) (l : List (PyPath × FSNode)) (acc : FS)
    (q : PyPath) (h : fsGet (copytreeAux src dst l acc) q ≠ fsGet acc q) :
    ∃ kv ∈ l, underPath src kv.1 = true ∧ q = rebase src dst kv.1 := by
  induction l generalizing acc with
  | nil => exact absurd rfl h
  | cons kv rest ih =>
    have hstep : copytreeAux src dst (kv :: rest) acc =
        copytreeAux src dst rest
          (if underPath src kv.1 then setKey acc (rebase src dst kv.1) kv.2 else acc) := rfl
    rw [hstep] at h
    by_cases hu : underPath src kv.1 = true
    · rw [if_pos hu] at h
      by_cases hch : fsGet (copytreeAux src dst rest (setKey acc (rebase src dst kv.1) kv.2)) q
          = fsGet (setKey acc (rebase src dst kv.1) kv.2) q
      · rw [hch, fsGet_setKey] at h
        by_cases hq : q = rebase src dst kv.1
        · exact ⟨kv, List.mem_cons_self _ _, hu, hq⟩
        · rw [if_neg hq] at h
          exact absurd rfl h
      · obtain ⟨kv', h1, h2, h3⟩ := ih _ hch
        exact ⟨kv', List.mem_cons_of_mem _ h1, h2, h3⟩
    · rw [if_neg hu] at h
      obtain ⟨kv', h1, h2, h3⟩ := ih _ h
      exact ⟨kv', List.mem_cons_of_mem _ h1, h2, h3⟩

theorem keysNodup_copytreeAux (src dst : PyPath) (l : List (PyPath × FSNode)) (acc : FS)
    (h : keysNodup acc) : keysNodup (copytreeAux src dst l acc) := by
  induction l generalizing acc with
  | nil => exact h
  | cons kv rest ih =>
    have hstep : copytreeAux src dst (kv :: rest) acc =
        copytreeAux src dst rest
          (if underPath src kv.1 then setKey acc (rebase src dst kv.1) kv.2 else acc) := rfl
    rw [hstep]
    by_cases hu : underPath src kv.1 = true
    · rw [if_pos hu]
      exact ih _ (keysNodup_setKey _ _ _ h)
    · rw [if_neg hu]
      exact ih _ h

end FSLemmas

section BuildStepLemmas

theorem isFileOrDir_cases (o : Option FSNode) (h : isFileOrDir o = true) :
    (∃ content, o = some (FSNode.file content)) ∨ o = some FSNode.dir := by
  cases o with
  | none => simp [isFileOrDir] at h
  | some n =>
    cases n with
    | file content => exact Or.inl ⟨content, rfl⟩
    | dir => exact Or.inr rfl
    | other => simp [isFileOrDir] at h

theorem mkdirFold_pres_some (chain : List PyPath) (fs : FS) (q : PyPath) (n : FSNode)
    (h : fsGet fs q = some n) : fsGet (mkdirFold chain fs) q = some n := by
  rw [fsGet_mkdirFold]
  rw [h]
  simp

theorem buildStep_ok (dest : PyPath) (fs : FS) (c h : PyPath)
    (hnd : keysNodup fs)
    (habs : c.absolute = false)
    (hdot : c.parts.contains ".." = false)
    (hne : c.parts ≠ [])
    (hhost : isFileOrDir (fsGet fs h) = true)
    (hfresh : ∀ q, underPath (dest.join c) q = true → fsGet fs q = none)
    (hchain : ∀ q ∈ ancestors (dest.join c), noneOrDir (fsGet fs q) = true) :
    ∃ fs₂, buildStep dest fs (c, h) = Except.ok fs₂ ∧ keysNodup fs₂ ∧
      (∀ q, fsGet fs₂ q ≠ fsGet fs q →
        underPath (dest.join c) q = true ∨
          (q ∈ ancestors (dest.join c) ∧ fsGet fs q = none ∧
            fsGet fs₂ q = some FSNode.dir)) ∧
      (∀ content, fsGet fs h = some (FSNode.file content) →
        fsGet fs₂ (dest.join c) = some (FSNode.file content)) ∧
      (fsGet fs h = some FSNode.dir →
        ∀ r n, underPath h r = true → fsGet fs r = some n →
          fsGet fs₂ (rebase h (dest.join c) r) = some n) := by
  have hdstrel : dest.join c =
      { absolute := dest.absolute, parts := dest.parts ++ c.parts } :=
    join_rel dest c habs
  have hdstne : (dest.join c).parts ≠ [] := by
    rw [hdstrel]
    simp [hne]
  have hcond1 : (c.absolute || c.parts.contains "..") = false := by
    rw [habs, hdot]
    rfl
  have hsome : (fsGet fs h).isNone = false := by
    cases hfs : fsGet fs h with
    | none => rw [hfs] at hhost
              simp [isFileOrDir] at hhost
    | some n => simp
  have hchainpar : ancestors (dest.join c).parent ++ [(dest.join c).parent] =
      ancestors (dest.join c) := chain_parent _ hdstne
  have hmk : mkdirParents fs (dest.join c).parent =
      Except.ok (mkdirFold (ancestors (dest.join c)) fs) := by
    rw [mkdirParents_ok fs (dest.join c).parent, hchainpar]
    rw [hchainpar]
    exact hchain
  have hdst_not_anc : (dest.join c) ∉ ancestors (dest.join c) := by
    intro hmem
    exact absurd (mem_ancestors_length _ _ hmem) (by omega)
  have hfs1dst : fsGet (mkdirFold (ancestors (dest.join c)) fs) (dest.join c) = none := by
    rw [fsGet_mkdirFold]
    rw [if_neg]
    · exact hfresh _ (underPath_refl _)
    · intro hcontra
      exact hdst_not_anc hcontra.1
  have hfs1nd : keysNodup (mkdirFold (ancestors (dest.join c)) fs) :=
    keysNodup_mkdirFold _ fs hnd
  have hfs1changes : ∀ q,
      fsGet (mkdirFold (ancestors (dest.join c)) fs) q ≠ fsGet fs q →
      q ∈ ancestors (dest.join c) ∧ fsGet fs q = none ∧
        fsGet (mkdirFold (ancestors (dest.join c)) fs) q = some FSNode.dir := by
    intro q hq
    rw [fsGet_mkdirFold] at hq ⊢
    by_cases hcond : q ∈ ancestors (dest.join c) ∧ fsGet fs q = none
    · rw [if_pos hcond]
      exact ⟨hcond.1, hcond.2, rfl⟩
    · rw [if_neg hcond] at hq
      exact absurd rfl hq
  rcases isFileOrDir_cases _ hhost with ⟨content, hfile⟩ | hdir
  · -- host is a regular file
    refine ⟨copy2 (mkdirFold (ancestors (dest.join c)) fs) h (dest.join c), ?_, ?_, ?_, ?_, ?_⟩
    · show buildStep dest fs (c, h) = _
      unfold buildStep
      simp only [hcond1, Bool.false_eq_true, if_false, hsome, hfile, hmk, Option.isNone_some]
    · exact keysNodup_copy2 _ _ _ hfs1nd
    · -- containment
      intro q hq
      have hfs1h : fsGet (mkdirFold (ancestors (dest.join c)) fs) h =
          some (FSNode.file content) := mkdirFold_pres_some _ _ _ _ hfile
      have hcopyeq : copy2 (mkdirFold (ancestors (dest.join c)) fs) h (dest.join c) =
          setKey (mkdirFold (ancestors (dest.join c)) fs) (dest.join c)
            (FSNode.file content) := by
        apply copy2_eq _ _ _ _ hfs1h
        rw [hfs1dst]
        simp
      rw [hcopyeq, fsGet_setKey] at hq
      by_cases hqdst : q = dest.join c
      · exact Or.inl (hqdst ▸ underPath_refl _)
      · rw [if_neg hqdst] at hq
        rcases hfs1changes q hq with ⟨h1, h2, h3⟩
        refine Or.inr ⟨h1, h2, ?_⟩
        rw [hcopyeq, fsGet_setKey, if_neg hqdst]
        exact h3
    · -- file fact
      intro content' hfile'
      rw [hfile] at hfile'
      injection hfile' with hfile'
      injection hfile' with hfile'
      subst hfile'
      have hfs1h : fsGet (mkdirFold (ancestors (dest.join c)) fs) h =
          some (FSNode.file content) := mkdirFold_pres_some _ _ _ _ hfile
      have hcopyeq : copy2 (mkdirFold (ancestors (dest.join c)) fs) h (dest.join c) =
          setKey (mkdirFold (ancestors (dest.join c)) fs) (dest.join c)
            (FSNode.file content) := by
        apply copy2_eq _ _ _ _ hfs1h
        rw [hfs1dst]
        simp
      rw [hcopyeq, fsGet_setKey, if_pos rfl]
    · -- dir fact (vacuous: host is a file)
      intro hdir'
      rw [hfile] at hdir'
      simp at hdir'
  · -- host is a directory
    refine ⟨copytree (mkdirFold (ancestors (dest.join c)) fs) h (dest.join c),
      ?_, ?_, ?_, ?_, ?_⟩
    · show buildStep dest fs (c, h) = _
      unfold buildStep
      simp only [hcond1, Bool.false_eq_true, if_false, hsome, hdir, hmk, Option.isNone_some]
    · exact keysNodup_copytreeAux _ _ _ _ hfs1nd
    · -- containment
      intro q hq
      by_cases hch : fsGet (copytree (mkdirFold (ancestors (dest.join c)) fs) h
          (dest.join c)) q = fsGet (mkdirFold (ancestors (dest.join c)) fs) q
      · rw [hch] at hq
        rcases hfs1changes q hq with ⟨h1, h2, h3⟩
        refine Or.inr ⟨h1, h2, ?_⟩
        rw [hch]
        exact h3
      · obtain ⟨kv, _, hkvu, hkvq⟩ := copytreeAux_changes h (dest.join c) _ _ q hch
        subst hkvq
        exact Or.inl (underPath_rebase _ _ _)
    · -- file fact (vacuous: host is a directory)
      intro content' hfile'
      rw [hdir] at hfile'
      simp at hfile'
    · -- dir fact
      intro _ r n hur hrn
      have hfs1r : fsGet (mkdirFold (ancestors (dest.join c)) fs) r = some n :=
        mkdirFold_pres_some _ _ _ _ hrn
      exact copytreeAux_correct h (dest.join c) _ _ r n hfs1nd
        (lookup_mem _ _ _ hfs1r) hur

end BuildStepLemmas

section JoinLemmas

theorem partsLe_append_left (l l₁ l₂ : List String) :
    partsLe (l ++ l₁) (l ++ l₂) = partsLe l₁ l₂ := by
  induction l with
  | nil => rfl
  | cons a as ih => simp [partsLe, ih]

theorem under_join_iff (dest c c' : PyPath) (h1 : c.absolute = false)
    (h2 : c'.absolute = false) :
    underPath (dest.join c) (dest.join c') = true ↔
      partsLe c.parts c'.parts = true := by
  rw [join_rel dest c h1, join_rel dest c' h2, underPath_iff]
  simp [partsLe_append_left]

theorem under_join_under_dest (dest c q : PyPath) (habs : c.absolute = false)
    (h : underPath (dest.join c) q = true) : underPath dest q = true :=
  underPath_trans _ _ _ (underPath_join_rel dest c habs) h

theorem under_join_length (dest c q : PyPath) (habs : c.absolute = false)
    (h : underPath (dest.join c) q = true) :
    dest.parts.length + c.parts.length ≤ q.parts.length := by
  have hlen := underPath_length _ _ h
  rw [join_rel dest c habs] at hlen
  simpa using hlen

theorem anc_join_cases (dest c q : PyPath) (habs : c.absolute = false)
    (h : q ∈ ancestors (dest.join c)) :
    q ∈ ancestors dest ∨ q = dest ∨
      ∃ j, 0 < j ∧ j < c.parts.length ∧
        q = { absolute := dest.absolute, parts := dest.parts ++ c.parts.take j } := by
  rw [join_rel dest c habs] at h
  rcases mem_ancestors_append dest.absolute dest.parts c.parts q h with h | ⟨j, hj, rfl⟩
  · left
    exact h
  · by_cases hj0 : j = 0
    · subst hj0
      right
      left
      cases dest
      simp
    · right
      right
      exact ⟨j, Nat.pos_of_ne_zero hj0, hj, rfl⟩

theorem under_join_inner (dest c c' : PyPath) (j : Nat)
    (h2 : c'.absolute = false)
    (h : underPath (dest.join c')
      { absolute := dest.absolute, parts := dest.parts ++ c.parts.take j } = true) :
    partsLe c'.parts c.parts = true := by
  rw [join_rel dest c' h2, underPath_iff] at h
  have hle : partsLe c'.parts (c.parts.take j) = true := by
    have := h.2
    rwa [partsLe_append_left] at this
  exact partsLe_trans _ _ _ hle (partsLe_take _ _)

theorem inner_under_dest (dest c : PyPath) (j : Nat) :
    underPath dest { absolute := dest.absolute, parts := dest.parts ++ c.parts.take j }
      = true := by
  rw [underPath_iff]
  exact ⟨rfl, partsLe_append _ _⟩

end JoinLemmas

section BuildEntriesSpec

theorem bool_eq_true_of_ne_false (b : Bool) (h : b ≠ false) : b = true := by
  cases b
  · exact absurd rfl h
  · rfl

theorem buildEntries_spec (dest : PyPath) (entries : List (PyPath × PyPath)) :
    ∀ (fs : FS),
    keysNodup fs →
    destReady fs dest →
    (∀ e ∈ entries, e.1.absolute = false ∧ e.1.parts.contains ".." = false ∧
      e.1.parts ≠ []) →
    (∀ e ∈ entries, isFileOrDir (fsGet fs e.2) = true) →
    (∀ e ∈ entries, underPath e.2 dest = false ∧ underPath dest e.2 = false) →
    (∀ e ∈ entries, ∀ q, underPath (dest.join e.1) q = true → fsGet fs q = none) →
    (∀ e ∈ entries, ∀ q ∈ ancestors (dest.join e.1), noneOrDir (fsGet fs q) = true) →
    List.Pairwise (fun e₁ e₂ => partsLe e₁.1.parts e₂.1.parts = false ∧
      partsLe e₂.1.parts e₁.1.parts = false) entries →
    ∃ fs', buildEntries dest entries fs = (Except.ok (), fs') ∧
      keysNodup fs' ∧ destReady fs' dest ∧
      (∀ q, fsGet fs' q ≠ fsGet fs q →
        (∃ e ∈ entries, underPath (dest.join e.1) q = true) ∨
        (fsGet fs q = none ∧ fsGet fs' q = some FSNode.dir ∧
          ∃ e ∈ entries, q ∈ ancestors (dest.join e.1))) ∧
      (∀ e ∈ entries, ∀ content, fsGet fs e.2 = some (FSNode.file content) →
        fsGet fs' (dest.join e.1) = some (FSNode.file content)) ∧
      (∀ e ∈ entries, fsGet fs e.2 = some FSNode.dir →
        ∀ r n, underPath e.2 r = true → fsGet fs r = some n →
          fsGet fs' (rebase e.2 (dest.join e.1) r) = some n) := by
  induction entries with
  | nil =>
    intro fs hnd hready _ _ _ _ _ _
    refine ⟨fs, rfl, hnd, hready, ?_, ?_, ?_⟩
    · intro q hq
      exact absurd rfl hq
    · intro e he
      simp at he
    · intro e he
      simp at he
  | cons e rest ih =>
    obtain ⟨c, h⟩ := e
    intro fs hnd hready hctx hhost haway hfresh hchains hpw
    have hmemhead : (c, h) ∈ (c, h) :: rest := List.mem_cons_self _ _
    obtain ⟨habs, hdot, hne⟩ := hctx _ hmemhead
    have hhost0 := hhost _ hmemhead
    have haway0 := haway _ hmemhead
    have hfresh0 := hfresh _ hmemhead
    have hchain0 := hchains _ hmemhead
    have hclen : 0 < c.parts.length := List.length_pos.mpr hne
    obtain ⟨fs₂, hstep, hnd₂, hcont₂, hfile₂, hdir₂⟩ :=
      buildStep_ok dest fs c h hnd habs hdot hne hhost0 hfresh0 hchain0
    rw [List.pairwise_cons] at hpw
    obtain ⟨hpwhead, hpwrest⟩ := hpw
    obtain ⟨hready1, hready2⟩ := hready
    -- the step changes nothing outside the tree below `dest`
    have hKdest : ∀ q, underPath dest q = false → fsGet fs₂ q = fsGet fs q := by
      intro q hq
      by_contra hch
      rcases hcont₂ q hch with hu | ⟨hanc, hnone, _⟩
      · have htrue := under_join_under_dest dest c q habs hu
        rw [htrue] at hq
        simp at hq
      · rcases anc_join_cases dest c q habs hanc with hq2 | hq2 | ⟨j, _, _, rfl⟩
        · rw [hready1 q hq2] at hnone
          simp at hnone
        · subst hq2
          rw [hready2] at hnone
          simp at hnone
        · have htrue := inner_under_dest dest c j
          rw [htrue] at hq
          simp at hq
    -- the step changes nothing inside another remaining entry's target tree
    have hKother : ∀ e' ∈ rest, ∀ q, underPath (dest.join e'.1) q = true →
        fsGet fs₂ q = fsGet fs q := by
      intro e' he' q hq
      by_contra hch
      have habs' := (hctx e' (List.mem_cons_of_mem _ he')).1
      have hne' := (hctx e' (List.mem_cons_of_mem _ he')).2.2
      have hclen' : 0 < e'.1.parts.length := List.length_pos.mpr hne'
      have hpw1 : partsLe c.parts e'.1.parts = false := (hpwhead e' he').1
      have hpw2 : partsLe e'.1.parts c.parts = false := (hpwhead e' he').2
      rcases hcont₂ q hch with hu | ⟨hanc, hnone, _⟩
      · rcases underPath_comparable _ _ q hu hq with hcc | hcc
        · rw [under_join_iff dest c e'.1 habs habs'] at hcc
          rw [hcc] at hpw1
          simp at hpw1
        · rw [under_join_iff dest e'.1 c habs' habs] at hcc
          rw [hcc] at hpw2
          simp at hpw2
      · rcases anc_join_cases dest c q habs hanc with hq2 | hq2 | ⟨j, _, _, rfl⟩
        · have hl1 := mem_ancestors_length _ _ hq2
          have hl2 := under_join_length dest e'.1 q habs' hq
          omega
        · rw [hq2] at hq
          have hl2 := under_join_length dest e'.1 dest habs' hq
          omega
        · have hcc := under_join_inner dest c e'.1 j habs' hq
          rw [hcc] at hpw2
          simp at hpw2
    -- destination readiness is preserved by the step
    have hready₂ : destReady fs₂ dest := by
      constructor
      · intro q hq
        have hlq := mem_ancestors_length _ _ hq
        have hfalse : underPath dest q = false := by
          cases hud : underPath dest q
          · rfl
          · have := underPath_length _ _ hud
            omega
        rw [hKdest q hfalse]
        exact hready1 q hq
      · by_cases hch : fsGet fs₂ dest = fsGet fs dest
        · rw [hch]
          exact hready2
        · rcases hcont₂ dest hch with hu | ⟨_, hnone, _⟩
          · have hl2 := under_join_length dest c dest habs hu
            omega
          · rw [hready2] at hnone
            simp at hnone
    -- remaining hosts and their trees are untouched by the step
    have hhost₂ : ∀ e' ∈ rest, isFileOrDir (fsGet fs₂ e'.2) = true := by
      intro e' he'
      rw [hKdest e'.2 (haway e' (List.mem_cons_of_mem _ he')).2]
      exact hhost e' (List.mem_cons_of_mem _ he')
    have hfresh₂ : ∀ e' ∈ rest, ∀ q, underPath (dest.join e'.1) q = true →
        fsGet fs₂ q = none := by
      intro e' he' q hq
      rw [hKother e' he' q hq]
      exact hfresh e' (List.mem_cons_of_mem _ he') q hq
    have hchains₂ : ∀ e' ∈ rest, ∀ q ∈ ancestors (dest.join e'.1),
        noneOrDir (fsGet fs₂ q) = true := by
      intro e' he' q hq
      by_cases hch : fsGet fs₂ q = fsGet fs q
      · rw [hch]
        exact hchains e' (List.mem_cons_of_mem _ he') q hq
      · have habs' := (hctx e' (List.mem_cons_of_mem _ he')).1
        rcases hcont₂ q hch with hu | ⟨_, _, hdirq⟩
        · rcases anc_join_cases dest e'.1 q habs' hq with hq2 | hq2 | ⟨j, _, _, rfl⟩
          · have hl1 := mem_ancestors_length _ _ hq2
            have hl2 := under_join_length dest c q habs hu
            omega
          · rw [hq2] at hu
            have hl2 := under_join_length dest c dest habs hu
            omega
          · have hcc := under_join_inner dest e'.1 c j habs hu
            have hpw1 : partsLe c.parts e'.1.parts = false := (hpwhead e' he').1
            rw [hcc] at hpw1
            simp at hpw1
        · rw [hdirq]
          rfl
    obtain ⟨fs', hrun, hnd', hready', hcont', hfile', hdir'⟩ :=
      ih fs₂ hnd₂ hready₂ (fun e' he' => hctx e' (List.mem_cons_of_mem _ he'))
        hhost₂ (fun e' he' => haway e' (List.mem_cons_of_mem _ he')) hfresh₂
        hchains₂ hpwrest
    refine ⟨fs', ?_, hnd', hready', ?_, ?_, ?_⟩
    · show buildEntries dest ((c, h) :: rest) fs = (Except.ok (), fs')
      unfold buildEntries
      rw [hstep]
      exact hrun
    · -- containment
      intro q hq
      by_cases hch2 : fsGet fs' q = fsGet fs₂ q
      · have hch1 : fsGet fs₂ q ≠ fsGet fs q := by
          rw [← hch2]
          exact hq
        rcases hcont₂ q hch1 with hu | ⟨hanc, hnone, hdirq⟩
        · exact Or.inl ⟨(c, h), List.mem_cons_self _ _, hu⟩
        · refine Or.inr ⟨hnone, ?_, (c, h), List.mem_cons_self _ _, hanc⟩
          rw [hch2]
          exact hdirq
      · rcases hcont' q hch2 with ⟨e', he', hu⟩ | ⟨hnone₂, hdirq', he'⟩
        · exact Or.inl ⟨e', List.mem_cons_of_mem _ he', hu⟩
        · by_cases hch1 : fsGet fs₂ q = fsGet fs q
          · rw [hch1] at hnone₂
            obtain ⟨e', he', hanc⟩ := he'
            exact Or.inr ⟨hnone₂, hdirq', e', List.mem_cons_of_mem _ he', hanc⟩
          · rcases hcont₂ q hch1 with hu | ⟨_, _, hdirq⟩
            · exact Or.inl ⟨(c, h), List.mem_cons_self _ _, hu⟩
            · rw [hnone₂] at hdirq
              simp at hdirq
    · -- file facts
      intro e'' he'' content hcontent
      rcases List.mem_cons.mp he'' with he'' | he''
      · subst he''
        have hstepfile := hfile₂ content hcontent
        by_cases hch2 : fsGet fs' (dest.join c) = fsGet fs₂ (dest.join c)
        · rw [hch2]
          exact hstepfile
        · rcases hcont' _ hch2 with ⟨e', he', hu⟩ | ⟨hnone₂, _, _⟩
          · have habs' := (hctx e' (List.mem_cons_of_mem _ he')).1
            rw [under_join_iff dest e'.1 c habs' habs] at hu
            have hpw2 : partsLe e'.1.parts c.parts = false := (hpwhead e' he').2
            rw [hu] at hpw2
            simp at hpw2
          · rw [hstepfile] at hnone₂
            simp at hnone₂
      · have hh2 : fsGet fs₂ e''.2 = fsGet fs e''.2 :=
          hKdest e''.2 (haway e'' (List.mem_cons_of_mem _ he'')).2
        apply hfile' e'' he'' content
        rw [hh2]
        exact hcontent
    · -- directory facts
      intro e'' he'' hdirhost r n hur hrn
      rcases List.mem_cons.mp he'' with he'' | he''
      · subst he''
        have hstepdir := hdir₂ hdirhost r n hur hrn
        have hunder : underPath (dest.join c) (rebase h (dest.join c) r) = true :=
          underPath_rebase _ _ _
        by_cases hch2 : fsGet fs' (rebase h (dest.join c) r)
            = fsGet fs₂ (rebase h (dest.join c) r)
        · rw [hch2]
          exact hstepdir
        · rcases hcont' _ hch2 with ⟨e', he', hu⟩ | ⟨hnone₂, _, _⟩
          · have habs' := (hctx e' (List.mem_cons_of_mem _ he')).1
            rcases underPath_comparable _ _ _ hu hunder with hcc | hcc
            · rw [under_join_iff dest e'.1 c habs' habs] at hcc
              have hpw2 : partsLe e'.1.parts c.parts = false := (hpwhead e' he').2
              rw [hcc] at hpw2
              simp at hpw2
            · rw [under_join_iff dest c e'.1 habs habs'] at hcc
              have hpw1 : partsLe c.parts e'.1.parts = false := (hpwhead e' he').1
              rw [hcc] at hpw1
              simp at hpw1
          · rw [hstepdir] at hnone₂
            simp at hnone₂
      · have haway' := haway e'' (List.mem_cons_of_mem _ he'')
        have hh2 : fsGet fs₂ e''.2 = fsGet fs e''.2 := hKdest e''.2 haway'.2
        have hrfalse : underPath dest r = false := by
          cases hud : underPath dest r
          · rfl
          · rcases underPath_comparable dest e''.2 r hud hur with hcc | hcc
            · rw [haway'.2] at hcc
              simp at hcc
            · rw [haway'.1] at hcc
              simp at hcc
        have hr2 : fsGet fs₂ r = fsGet fs r := hKdest r hrfalse
        apply hdir' e'' he''
        · rw [hh2]
          exact hdirhost
        · exact hur
        · rw [hr2]
          exact hrn

end BuildEntriesSpec

section BuildSpec

theorem build_spec (c : BuildContext) (fs : FS) (dest : PyPath)
    (hnd : keysNodup fs)
    (hanc : ∀ q ∈ ancestors dest, noneOrDir (fsGet fs q) = true)
    (hdest0 : ∀ kv ∈ fs, underPath dest kv.1 = true → kv.1 = dest ∧ kv.2 = FSNode.dir)
    (hctx : ∀ e ∈ c.context_entries, e.1.absolute = false ∧
      e.1.parts.contains ".." = false ∧ e.1.parts ≠ [])
    (hhost : ∀ e ∈ c.context_entries, isFileOrDir (fsGet fs e.2) = true)
    (haway : ∀ e ∈ c.context_entries, underPath e.2 dest = false)
    (hpw : List.Pairwise (fun e₁ e₂ => partsLe e₁.1.parts e₂.1.parts = false ∧
      partsLe e₂.1.parts e₁.1.parts = false) c.context_entries) :
    ∃ fs', c.build fs dest = (Except.ok (), fs') ∧ keysNodup fs' ∧
      fsGet fs' dest = some FSNode.dir ∧
      (∀ q ∈ ancestors dest, fsGet fs' q = some FSNode.dir) ∧
      (∀ e ∈ c.context_entries, ∀ content,
        fsGet fs e.2 = some (FSNode.file content) →
        fsGet fs' (dest.join e.1) = some (FSNode.file content)) ∧
      (∀ e ∈ c.context_entries, fsGet fs e.2 = some FSNode.dir →
        ∀ r n, underPath e.2 r = true → fsGet fs r = some n →
          fsGet fs' (rebase e.2 (dest.join e.1) r) = some n) := by
  have hdestopt : noneOrDir (fsGet fs dest) = true := by
    cases hfd : fsGet fs dest with
    | none => rfl
    | some n =>
      have hkv := lookup_mem fs dest n hfd
      have hdir : n = FSNode.dir := (hdest0 _ hkv (underPath_refl dest)).2
      rw [hdir]
      rfl
  have hchainall : ∀ q ∈ ancestors dest ++ [dest], noneOrDir (fsGet fs q) = true := by
    intro q hq
    rcases List.mem_append.mp hq with hq | hq
    · exact hanc q hq
    · rw [List.mem_singleton] at hq
      rw [hq]
      exact hdestopt
  have hmk := mkdirParents_ok fs dest hchainall
  have hfs₀nd : keysNodup (mkdirFold (ancestors dest ++ [dest]) fs) :=
    keysNodup_mkdirFold _ _ hnd
  have hpres : ∀ q n, fsGet fs q = some n →
      fsGet (mkdirFold (ancestors dest ++ [dest]) fs) q = some n :=
    fun q n hq => mkdirFold_pres_some _ _ _ _ hq
  have hfs₀dest : fsGet (mkdirFold (ancestors dest ++ [dest]) fs) dest
      = some FSNode.dir := by
    rw [fsGet_mkdirFold]
    cases hfd : fsGet fs dest with
    | none =>
      rw [if_pos ⟨List.mem_append_right _ (List.mem_singleton.mpr rfl), rfl⟩]
    | some n =>
      have hkv := lookup_mem fs dest n hfd
      have hdir : n = FSNode.dir := (hdest0 _ hkv (underPath_refl dest)).2
      rw [if_neg (fun hcond => absurd hcond.2 (by simp))]
      rw [hdir]
  have hfs₀anc : ∀ q ∈ ancestors dest,
      fsGet (mkdirFold (ancestors dest ++ [dest]) fs) q = some FSNode.dir := by
    intro q hq
    rw [fsGet_mkdirFold]
    cases hfq : fsGet fs q with
    | none =>
      rw [if_pos ⟨List.mem_append_left _ hq, rfl⟩]
    | some n =>
      have hnd1 := hanc q hq
      rw [hfq] at hnd1
      have hdir : n = FSNode.dir := by
        cases n with
        | file content => simp [noneOrDir] at hnd1
        | dir => rfl
        | other => simp [noneOrDir] at hnd1
      rw [if_neg (fun hcond => absurd hcond.2 (by simp))]
      rw [hdir]
  have hready₀ : destReady (mkdirFold (ancestors dest ++ [dest]) fs) dest :=
    ⟨hfs₀anc, hfs₀dest⟩
  have hq_none : ∀ q, underPath dest q = true → q ≠ dest → fsGet fs q = none := by
    intro q hq hqne
    cases hfq : fsGet fs q with
    | none => rfl
    | some n =>
      have hkv := lookup_mem fs q n hfq
      exact absurd (hdest0 _ hkv hq).1 hqne
  have hnot_chain : ∀ (q : PyPath), dest.parts.length < q.parts.length →
      q ∉ ancestors dest ++ [dest] := by
    intro q hlen hmem
    rcases List.mem_append.mp hmem with hmem | hmem
    · have := mem_ancestors_length _ _ hmem
      omega
    · rw [List.mem_singleton] at hmem
      rw [hmem] at hlen
      omega
  have hfresh₀ : ∀ e ∈ c.context_entries, ∀ q,
      underPath (dest.join e.1) q = true →
      fsGet (mkdirFold (ancestors dest ++ [dest]) fs) q = none := by
    intro e he q hq
    have habs := (hctx e he).1
    have hclen : 0 < e.1.parts.length := List.length_pos.mpr (hctx e he).2.2
    have hud : underPath dest q = true := under_join_under_dest dest e.1 q habs hq
    have hlen := under_join_length dest e.1 q habs hq
    have hqne : q ≠ dest := by
      intro hcontra
      rw [hcontra] at hlen
      omega
    have hfsq := hq_none q hud hqne
    rw [fsGet_mkdirFold]
    rw [if_neg (fun hcond => hnot_chain q (by omega) hcond.1)]
    exact hfsq
  have hchains₀ : ∀ e ∈ c.context_entries, ∀ q ∈ ancestors (dest.join e.1),
      noneOrDir (fsGet (mkdirFold (ancestors dest ++ [dest]) fs) q) = true := by
    intro e he q hq
    have habs := (hctx e he).1
    rcases anc_join_cases dest e.1 q habs hq with hq2 | hq2 | ⟨j, hj0, hjlt, rfl⟩
    · rw [hfs₀anc q hq2]
      rfl
    · rw [hq2, hfs₀dest]
      rfl
    · have hud := inner_under_dest dest e.1 j
      have hlentake : (e.1.parts.take j).length = j := by
        rw [List.length_take]
        omega
      have hqne :
          ({ absolute := dest.absolute, parts := dest.parts ++ e.1.parts.take j } :
            PyPath) ≠ dest := by
        intro hcontra
        have hparts := congrArg PyPath.parts hcontra
        simp only at hparts
        have htake : e.1.parts.take j = [] := by
          have : dest.parts ++ e.1.parts.take j = dest.parts ++ [] := by
            rw [hparts]
            simp
          exact List.append_cancel_left this
        rw [htake] at hlentake
        simp at hlentake
        omega
      have hfsq := hq_none _ hud hqne
      rw [fsGet_mkdirFold]
      rw [if_neg (fun hcond => hnot_chain _ (by simp [hlentake]; omega) hcond.1)]
      rw [hfsq]
      rfl
  have hhost₀ : ∀ e ∈ c.context_entries,
      isFileOrDir (fsGet (mkdirFold (ancestors dest ++ [dest]) fs) e.2) = true := by
    intro e he
    rcases isFileOrDir_cases _ (hhost e he) with ⟨content, hf⟩ | hf
    · rw [hpres _ _ hf]
      rfl
    · rw [hpres _ _ hf]
      rfl
  have haway₀ : ∀ e ∈ c.context_entries,
      underPath e.2 dest = false ∧ underPath dest e.2 = false := by
    intro e he
    refine ⟨haway e he, ?_⟩
    cases hud : underPath dest e.2 with
    | false => rfl
    | true =>
      exfalso
      have hex : ∃ n, fsGet fs e.2 = some n := by
        rcases isFileOrDir_cases _ (hhost e he) with ⟨content, hf⟩ | hf
        · exact ⟨_, hf⟩
        · exact ⟨_, hf⟩
      obtain ⟨n, hf⟩ := hex
      have hkv := lookup_mem fs e.2 n hf
      have heq : e.2 = dest := (hdest0 _ hkv hud).1
      have hfalse := haway e he
      rw [heq, underPath_refl] at hfalse
      simp at hfalse
  obtain ⟨fs', hrun, hnd', hready', hcont', hfile', hdir'⟩ :=
    buildEntries_spec dest c.context_entries (mkdirFold (ancestors dest ++ [dest]) fs)
      hfs₀nd hready₀ hctx hhost₀ haway₀ hfresh₀ hchains₀ hpw
  obtain ⟨hreadyA, hreadyB⟩ := hready'
  refine ⟨fs', ?_, hnd', hreadyB, hreadyA, ?_, ?_⟩
  · show c.build fs dest = (Except.ok (), fs')
    unfold BuildContext.build
    rw [hmk]
    exact hrun
  · intro e he content hf
    exact hfile' e he content (hpres _ _ hf)
  · intro e he hf r n hur hrn
    exact hdir' e he (hpres _ _ hf) r n hur (hpres _ _ hrn)

end BuildSpec

section AddExtendLemmas

theorem add_context_entry_def (c : BuildContext) (host : PyPath) :
    c.add_context_entry host =
      match c.compute_context_path host with
      | Except.error e => (Except.error e, c)
      | Except.ok ctx_path =>
        match lookup? c.context_entries ctx_path with
        | some existing =>
          if existing = host then
            (Except.ok ctx_path,
              { c with context_entries := setKey c.context_entries ctx_path host })
          else
            (Except.error (CtxError.duplicateEntry ctx_path), c)
        | none =>
          (Except.ok ctx_path,
            { c with context_entries := setKey c.context_entries ctx_path host }) := rfl

theorem add_char_err (c : BuildContext) (host : PyPath) (e : CtxError)
    (h : c.compute_context_path host = Except.error e) :
    c.add_context_entry host = (Except.error e, c) := by
  rw [add_context_entry_def]
  simp only [h]

theorem add_char_ok_new (c : BuildContext) (host ctx : PyPath)
    (h : c.compute_context_path host = Except.ok ctx)
    (hlook : lookup? c.context_entries ctx = none) :
    c.add_context_entry host = (Except.ok ctx,
      { c with context_entries := setKey c.context_entries ctx host }) := by
  rw [add_context_entry_def]
  simp only [h, hlook]

theorem add_char_ok_existing (c : BuildContext) (host ctx existing : PyPath)
    (h : c.compute_context_path host = Except.ok ctx)
    (hlook : lookup? c.context_entries ctx = some existing)
    (hex : existing = host) :
    c.add_context_entry host = (Except.ok ctx,
      { c with context_entries := setKey c.context_entries ctx host }) := by
  rw [add_context_entry_def]
  simp only [h, hlook, if_pos hex]

theorem add_char_dup (c : BuildContext) (host ctx existing : PyPath)
    (h : c.compute_context_path host = Except.ok ctx)
    (hlook : lookup? c.context_entries ctx = some existing)
    (hex : existing ≠ host) :
    c.add_context_entry host = (Except.error (CtxError.duplicateEntry ctx), c) := by
  rw [add_context_entry_def]
  simp only [h, hlook, if_neg hex]

theorem add_ok_inv (c : BuildContext) (host p : PyPath) (c₁ : BuildContext)
    (h : c.add_context_entry host = (Except.ok p, c₁)) :
    c.compute_context_path host = Except.ok p ∧
      c₁ = { c with context_entries := setKey c.context_entries p host } := by
  cases hcompute : c.compute_context_path host with
  | error e =>
    rw [add_char_err c host e hcompute] at h
    simp at h
  | ok ctx =>
    cases hlook : lookup? c.context_entries ctx with
    | none =>
      rw [add_char_ok_new c host ctx hcompute hlook] at h
      rw [Prod.mk.injEq] at h
      obtain ⟨h1, h2⟩ := h
      injection h1 with h1
      refine ⟨?_, ?_⟩
      · rw [h1]
      · rw [h1] at h2
        exact h2.symm
    | some existing =>
      by_cases hex : existing = host
      · rw [add_char_ok_existing c host ctx existing hcompute hlook hex] at h
        rw [Prod.mk.injEq] at h
        obtain ⟨h1, h2⟩ := h
        injection h1 with h1
        refine ⟨?_, ?_⟩
        · rw [h1]
        · rw [h1] at h2
          exact h2.symm
      · rw [add_char_dup c host ctx existing hcompute hlook hex] at h
        simp at h

theorem compute_of_root_some (c : BuildContext) (host root q : PyPath)
    (h : c.context_root = some root) (hrel : host.relativeTo root = some q) :
    c.compute_context_path host = Except.ok q := by
  simp only [BuildContext.compute_context_path, h, hrel]

theorem compute_of_root_none (c : BuildContext) (host root : PyPath)
    (h : c.context_root = some root) (hrel : host.relativeTo root = none) :
    c.compute_context_path host = Except.error (CtxError.notRelative host root) := by
  simp only [BuildContext.compute_context_path, h, hrel]

theorem compute_of_noroot (c : BuildContext) (host : PyPath)
    (h : c.context_root = none) :
    c.compute_context_path host = Except.ok (pathOfName host.name) := by
  simp only [BuildContext.compute_context_path, h]

theorem compute_ok_root_inv (c : BuildContext) (host root p : PyPath)
    (h : c.context_root = some root)
    (hok : c.compute_context_path host = Except.ok p) :
    host.relativeTo root = some p := by
  cases hrel : host.relativeTo root with
  | some q =>
    rw [compute_of_root_some c host root q h hrel] at hok
    injection hok with hh
    rw [hh]
  | none =>
    rw [compute_of_root_none c host root h hrel] at hok
    simp at hok

theorem compute_ok_noroot_inv (c : BuildContext) (host p : PyPath)
    (h : c.context_root = none)
    (hok : c.compute_context_path host = Except.ok p) :
    p = pathOfName host.name := by
  rw [compute_of_noroot c host h] at hok
  injection hok with hh
  exact hh.symm

theorem compute_ok_absolute (c : BuildContext) (host p : PyPath)
    (hok : c.compute_context_path host = Except.ok p) : p.absolute = false := by
  cases hroot : c.context_root with
  | some root =>
    exact relativeTo_absolute _ _ _ (compute_ok_root_inv c host root p hroot hok)
  | none =>
    rw [compute_ok_noroot_inv c host p hroot hok]
    rfl

theorem compute_ok_mem (c : BuildContext) (host p : PyPath)
    (hok : c.compute_context_path host = Except.ok p) :
    ∀ s ∈ p.parts, s ∈ host.parts := by
  intro s hs
  cases hroot : c.context_root with
  | some root =>
    exact relativeTo_mem _ _ _ (compute_ok_root_inv c host root p hroot hok) s hs
  | none =>
    have hp := compute_ok_noroot_inv c host p hroot hok
    rw [hp] at hs
    simp only [pathOfName] at hs
    by_cases hn : host.name = ""
    · rw [if_pos hn] at hs
      simp at hs
    · rw [if_neg hn] at hs
      rw [List.mem_singleton] at hs
      rw [hs]
      apply name_mem
      intro hparts
      apply hn
      unfold PyPath.name
      rw [hparts]
      rfl

theorem extend_ok_char (a b : BuildContext) (h : mergeConflicts a b = []) :
    a.extend b = (Except.ok (),
      { a with context_entries := dictUpdate a.context_entries b.context_entries }) := by
  unfold BuildContext.extend
  rw [if_pos h]

theorem extend_err_char (a b : BuildContext) (h : mergeConflicts a b ≠ []) :
    a.extend b =
      (Except.error (CtxError.duplicateMerge (mergeConflicts a b)), a) := by
  unfold BuildContext.extend
  rw [if_neg h]

theorem extend_ok_inv (a b c₁ : BuildContext)
    (h : a.extend b = (Except.ok (), c₁)) :
    c₁ = { a with
      context_entries := dictUpdate a.context_entries b.context_entries } := by
  by_cases hc : mergeConflicts a b = []
  · rw [extend_ok_char a b hc] at h
    rw [Prod.mk.injEq] at h
    exact h.2.symm
  · rw [extend_err_char a b hc] at h
    simp at h

theorem mem_mergeConflicts (a b : BuildContext) (k : PyPath)
    (hnd : keysNodup a.context_entries) :
    k ∈ mergeConflicts a b ↔
      ∃ v w, lookup? a.context_entries k = some v ∧
        lookup? b.context_entries k = some w ∧ v ≠ w := by
  unfold mergeConflicts
  simp only [List.mem_map, List.mem_filter]
  constructor
  · rintro ⟨kv, ⟨hkv, hcond⟩, rfl⟩
    cases hlb : lookup? b.context_entries kv.1 with
    | none =>
      rw [hlb] at hcond
      exact absurd hcond (by simp)
    | some w =>
      rw [hlb] at hcond
      have hvw : w ≠ kv.2 := of_decide_eq_true hcond
      exact ⟨kv.2, w, mem_lookup_of_nodup _ _ _ hnd hkv, rfl, fun hh => hvw hh.symm⟩
  · rintro ⟨v, w, hav, hbw, hvw⟩
    refine ⟨(k, v), ⟨lookup_mem _ _ _ hav, ?_⟩, rfl⟩
    rw [hbw]
    exact decide_eq_true hvw.symm

theorem mem_mergeConflicts_conflict (a b : BuildContext) (k v w : PyPath)
    (hav : lookup? a.context_entries k = some v)
    (hbw : lookup? b.context_entries k = some w) (hvw : v ≠ w) :
    k ∈ mergeConflicts a b := by
  unfold mergeConflicts
  simp only [List.mem_map, List.mem_filter]
  refine ⟨(k, v), ⟨lookup_mem _ _ _ hav, ?_⟩, rfl⟩
  rw [hbw]
  exact decide_eq_true hvw.symm

end AddExtendLemmas

section PureClaims

theorem compute_congr (c' c : BuildContext) (h : c'.context_root = c.context_root)
    (host : PyPath) :
    c'.compute_context_path host = c.compute_context_path host := by
  unfold BuildContext.compute_context_path
  rw [h]

theorem add_idem_state (c : BuildContext) (host ctx : PyPath)
    (hcompute : c.compute_context_path host = Except.ok ctx)
    (hlook : lookup? c.context_entries ctx = some host) :
    c.add_context_entry host = (Except.ok ctx, c) := by
  have hc := add_char_ok_existing c host ctx host hcompute hlook rfl
  rw [setKey_self c.context_entries ctx host hlook] at hc
  exact hc

theorem add_ok_fst_inv (c : BuildContext) (host p : PyPath)
    (h : (c.add_context_entry host).1 = Except.ok p) :
    c.compute_context_path host = Except.ok p := by
  have hpair : c.add_context_entry host = (Except.ok p, (c.add_context_entry host).2) := by
    have heta : c.add_context_entry host =
        ((c.add_context_entry host).1, (c.add_context_entry host).2) := rfl
    rw [heta, h]
  exact (add_ok_inv c host p (c.add_context_entry host).2 hpair).1

/-- C1: `add_context_entry` raises iff the computed context path is already
registered under a different host path; re-registration with the identical
host path succeeds, returns the existing context path and leaves the state
unchanged, so a repeated call returns the same result and the second call
never raises; and with no context root, registering a second, distinct
host path that shares the basename of an already registered one raises the
duplicate-entry error. -/
theorem claim_C1_add_collision_iff :
    (∀ (c : BuildContext) (host ctx : PyPath),
      c.compute_context_path host = Except.ok ctx →
      ((∃ e, (c.add_context_entry host).1 = Except.error e) ↔
        ∃ h₀, lookup? c.context_entries ctx = some h₀ ∧ h₀ ≠ host))
    ∧ (∀ (c : BuildContext) (host ctx : PyPath),
      c.compute_context_path host = Except.ok ctx →
      lookup? c.context_entries ctx = some host →
      c.add_context_entry host = (Except.ok ctx, c))
    ∧ (∀ (c : BuildContext) (host : PyPath),
      (c.add_context_entry host).2.add_context_entry host = c.add_context_entry host)
    ∧ (∀ h₁ h₂ : PyPath, h₁ ≠ h₂ → h₁.name = h₂.name →
      ∀ (p : PyPath) (c₁ : BuildContext),
        (BuildContext.init none).add_context_entry h₁ = (Except.ok p, c₁) →
        (c₁.add_context_entry h₂).1 = Except.error (CtxError.duplicateEntry p)) := by
  refine ⟨?_, ?_, ?_, ?_⟩
  · intro c host ctx hcompute
    constructor
    · rintro ⟨e, he⟩
      cases hlook : lookup? c.context_entries ctx with
      | none =>
        rw [add_char_ok_new c host ctx hcompute hlook] at he
        simp at he
      | some existing =>
        by_cases hex : existing = host
        · rw [add_char_ok_existing c host ctx existing hcompute hlook hex] at he
          simp at he
        · exact ⟨existing, rfl, hex⟩
    · rintro ⟨h₀, hlook, hne⟩
      exact ⟨CtxError.duplicateEntry ctx,
        by rw [add_char_dup c host ctx h₀ hcompute hlook hne]⟩
  · intro c host ctx hcompute hlook
    exact add_idem_state c host ctx hcompute hlook
  · intro c host
    cases hcompute : c.compute_context_path host with
    | error e =>
      have hc := add_char_err c host e hcompute
      rw [hc]
      exact hc
    | ok ctx =>
      cases hlook : lookup? c.context_entries ctx with
      | none =>
        have hc := add_char_ok_new c host ctx hcompute hlook
        rw [hc]
        apply add_idem_state
        · exact (compute_congr _ c rfl host).trans hcompute
        · show lookup? (setKey c.context_entries ctx host) ctx = some host
          rw [lookup_setKey]
          simp
      | some existing =>
        by_cases hex : existing = host
        · have hc := add_idem_state c host ctx hcompute (hex ▸ hlook)
          rw [hc]
          exact hc
        · have hc := add_char_dup c host ctx existing hcompute hlook hex
          rw [hc]
          exact hc
  · intro h₁ h₂ hne hname p c₁ hadd
    obtain ⟨hcompute, hc₁⟩ := add_ok_inv _ _ _ _ hadd
    have hroot : (BuildContext.init none).context_root = none := rfl
    have hp : p = pathOfName h₁.name := compute_ok_noroot_inv _ _ _ hroot hcompute
    have hentries : c₁.context_entries = [(p, h₁)] := by
      rw [hc₁]
      rfl
    have hroot₁ : c₁.context_root = none := by
      rw [hc₁]
      rfl
    have hcompute₂ : c₁.compute_context_path h₂ = Except.ok p := by
      rw [compute_of_noroot c₁ h₂ hroot₁, hp, hname]
    have hlook : lookup? c₁.context_entries p = some h₁ := by
      rw [hentries]
      simp [lookup?]
    rw [add_char_dup c₁ h₂ p h₁ hcompute₂ hlook hne]

/-- Witness for C1: with no context root, `/a/file.txt` then `/b/file.txt`
(same basename, different host paths) makes the second registration raise
the duplicate-entry error on `file.txt`. -/
theorem claim_C1_add_collision_iff_witness :
    ((((BuildContext.init none).add_context_entry (parsePath "/a/file.txt")).2).add_context_entry
        (parsePath "/b/file.txt")).1 =
      Except.error (CtxError.duplicateEntry (parsePath "file.txt")) :=
  claim_C1_add_collision_iff.2.2.2 (parsePath "/a/file.txt") (parsePath "/b/file.txt")
    (by decide) (by decide) (parsePath "file.txt")
    (((BuildContext.init none).add_context_entry (parsePath "/a/file.txt")).2) (by rfl)

/-- C2: with a context root, `add_context_entry` returns the host path
made relative to the root and fails with the relative-to error whenever
the host path is not under the root; with no root it returns the basename
of the host path; and on the concrete `/tmp/project` example the two
registrations succeed with `a/file.txt` and `b/file.txt`. -/
theorem claim_C2_context_path_rule :
    (∀ (c : BuildContext) (host root p : PyPath), c.context_root = some root →
      (c.add_context_entry host).1 = Except.ok p → host.relativeTo root = some p)
    ∧ (∀ (c : BuildContext) (host root : PyPath), c.context_root = some root →
      host.relativeTo root = none →
      (c.add_context_entry host).1 = Except.error (CtxError.notRelative host root))
    ∧ (∀ (c : BuildContext) (host p : PyPath), c.context_root = none →
      (c.add_context_entry host).1 = Except.ok p → p = pathOfName host.name)
    ∧ (((BuildContext.init (some (parsePath "/tmp/project"))).add_context_entry
        (parsePath "/tmp/project/a/file.txt")).1 = Except.ok (parsePath "a/file.txt")
      ∧ (((BuildContext.init (some (parsePath "/tmp/project"))).add_context_entry
          (parsePath "/tmp/project/a/file.txt")).2.add_context_entry
          (parsePath "/tmp/project/b/file.txt")).1
        = Except.ok (parsePath "b/file.txt")) := by
  refine ⟨?_, ?_, ?_, by rfl, by rfl⟩
  · intro c host root p hroot hok
    exact compute_ok_root_inv c host root p hroot (add_ok_fst_inv c host p hok)
  · intro c host root hroot hrel
    rw [add_char_err c host _ (compute_of_root_none c host root hroot hrel)]
  · intro c host p hroot hok
    exact compute_ok_noroot_inv c host p hroot (add_ok_fst_inv c host p hok)

/-- Witness for C2: registering `/t/x` with context root `/t` computes the
relative path `x`. -/
theorem claim_C2_context_path_rule_witness :
    (parsePath "/t/x").relativeTo (parsePath "/t") = some (parsePath "x") :=
  claim_C2_context_path_rule.1 (BuildContext.init (some (parsePath "/t")))
    (parsePath "/t/x") (parsePath "/t") (parsePath "x") (by rfl) (by rfl)

/-- C3: `extend` raises iff some context path is registered in both
contexts with different host paths; the raised error carries exactly the
conflicting context paths (all of them); on failure the receiver is left
unchanged (and the argument is never written to); on success the
receiver's mapping becomes the union of the two mappings. -/
theorem claim_C3_extend_merge :
    (∀ a b : BuildContext, keysNodup a.context_entries →
      ((∃ e, (a.extend b).1 = Except.error e) ↔
        ∃ k v w, lookup? a.context_entries k = some v ∧
          lookup? b.context_entries k = some w ∧ v ≠ w))
    ∧ (∀ (a b : BuildContext) (conflicts : List PyPath),
      keysNodup a.context_entries →
      (a.extend b).1 = Except.error (CtxError.duplicateMerge conflicts) →
      ∀ k, k ∈ conflicts ↔
        ∃ v w, lookup? a.context_entries k = some v ∧
          lookup? b.context_entries k = some w ∧ v ≠ w)
    ∧ (∀ (a b : BuildContext) (e : CtxError),
      (a.extend b).1 = Except.error e → (a.extend b).2 = a)
    ∧ (∀ a b : BuildContext, keysNodup b.context_entries →
      (a.extend b).1 = Except.ok () →
      ∀ k v, lookup? (a.extend b).2.context_entries k = some v ↔
        (lookup? a.context_entries k = some v ∨
          lookup? b.context_entries k = some v)) := by
  refine ⟨?_, ?_, ?_, ?_⟩
  · intro a b hnd
    constructor
    · rintro ⟨e, he⟩
      by_cases hc : mergeConflicts a b = []
      · rw [extend_ok_char a b hc] at he
        simp at he
      · obtain ⟨k, hk⟩ := List.exists_mem_of_ne_nil _ hc
        obtain ⟨v, w, hv, hw, hvw⟩ := (mem_mergeConflicts a b k hnd).mp hk
        exact ⟨k, v, w, hv, hw, hvw⟩
    · rintro ⟨k, v, w, hv, hw, hvw⟩
      have hk := mem_mergeConflicts_conflict a b k v w hv hw hvw
      have hc : mergeConflicts a b ≠ [] := List.ne_nil_of_mem hk
      exact ⟨_, by rw [extend_err_char a b hc]⟩
  · intro a b conflicts hnd he k
    by_cases hc : mergeConflicts a b = []
    · rw [extend_ok_char a b hc] at he
      simp at he
    · rw [extend_err_char a b hc] at he
      injection he with he
      injection he with he
      rw [← he]
      exact mem_mergeConflicts a b k hnd
  · intro a b e he
    by_cases hc : mergeConflicts a b = []
    · rw [extend_ok_char a b hc] at he
      simp at he
    · rw [extend_err_char a b hc]
  · intro a b hndb hok k v
    have hchar : mergeConflicts a b = [] := by
      by_contra hc
      rw [extend_err_char a b hc] at hok
      simp at hok
    have hmerged : (a.extend b).2.context_entries
        = dictUpdate a.context_entries b.context_entries := by
      rw [extend_ok_char a b hchar]
    have hnoconf : ∀ k' v' w', lookup? a.context_entries k' = some v' →
        lookup? b.context_entries k' = some w' → v' = w' := by
      intro k' v' w' hv hw
      by_contra hvw
      exact absurd hchar
        (List.ne_nil_of_mem (mem_mergeConflicts_conflict a b k' v' w' hv hw hvw))
    rw [hmerged]
    constructor
    · intro hm
      cases hlb : lookup? b.context_entries k with
      | none =>
        rw [lookup_dictUpdate_of_none _ _ _ hlb] at hm
        exact Or.inl hm
      | some w =>
        rw [lookup_dictUpdate_of_some _ _ _ _ hndb hlb] at hm
        injection hm with hm
        exact Or.inr (by rw [hm])
    · intro hm
      rcases hm with hm | hm
      · cases hlb : lookup? b.context_entries k with
        | none =>
          rw [lookup_dictUpdate_of_none _ _ _ hlb]
          exact hm
        | some w =>
          have hvw := hnoconf k v w hm hlb
          rw [lookup_dictUpdate_of_some _ _ _ _ hndb hlb, ← hvw]
      · exact lookup_dictUpdate_of_some _ _ _ _ hndb hm

/-- Witness for C3: merging two conflict-free contexts keeps the
receiver's entry. -/
theorem claim_C3_extend_merge_witness :
    lookup? (BuildContext.mk none [(parsePath "x", parsePath "/h1")] |>.extend
        (BuildContext.mk none [(parsePath "y", parsePath "/h2")])).2.context_entries
      (parsePath "x") = some (parsePath "/h1") :=
  (claim_C3_extend_merge.2.2.2
      (BuildContext.mk none [(parsePath "x", parsePath "/h1")])
      (BuildContext.mk none [(parsePath "y", parsePath "/h2")])
      (by decide) (by rfl) (parsePath "x") (parsePath "/h1")).mpr
    (Or.inl (by decide))

/-- C9: when `add_context_entry` raises (for either reason), the context's
entry mapping is left exactly as it was before the call. -/
theorem claim_C9_add_error_no_mutation :
    ∀ (c : BuildContext) (host : PyPath) (e : CtxError),
      (c.add_context_entry host).1 = Except.error e →
      (c.add_context_entry host).2 = c := by
  intro c host e he
  cases hcompute : c.compute_context_path host with
  | error e' =>
    rw [add_char_err c host e' hcompute]
  | ok ctx =>
    cases hlook : lookup? c.context_entries ctx with
    | none =>
      rw [add_char_ok_new c host ctx hcompute hlook] at he
      simp at he
    | some existing =>
      by_cases hex : existing = host
      · rw [add_char_ok_existing c host ctx existing hcompute hlook hex] at he
        simp at he
      · rw [add_char_dup c host ctx existing hcompute hlook hex]

/-- Witness for C9: a failed relative-to computation leaves the context
unchanged. -/
theorem claim_C9_add_error_no_mutation_witness :
    ((BuildContext.init (some (parsePath "/a"))).add_context_entry
      (parsePath "/b/x")).2 = BuildContext.init (some (parsePath "/a")) :=
  claim_C9_add_error_no_mutation (BuildContext.init (some (parsePath "/a")))
    (parsePath "/b/x")
    (CtxError.notRelative (parsePath "/b/x") (parsePath "/a")) (by rfl)

end PureClaims

section ReachableClaims

theorem contains_false_iff (l : List String) (s : String) :
    l.contains s = false ↔ s ∉ l := by
  induction l with
  | nil => simp
  | cons a as ih =>
    simp only [List.contains_cons, Bool.or_eq_false_iff, List.mem_cons, ih]
    constructor
    · rintro ⟨h1, h2⟩ h
      rcases h with h | h
      · rw [h] at h1
        simp at h1
      · exact h2 h
    · intro h
      constructor
      · by_cases hsa : s = a
        · exact absurd (Or.inl hsa) h
        · simp [beq_eq_false_iff_ne, hsa]
      · intro hmem
        exact h (Or.inr hmem)

/-- C7 (amended): on every context reachable through successful
`add_context_entry` and `extend` calls, each stored context path is
relative and each context path maps to exactly one host path (the dict
keys are unique); and provided every host path ever registered is free of
`..` components, the stored context paths are free of `..` as well.
(Without that proviso the `..`-freedom fails; see the counterexample.) -/
theorem claim_C7_reachable_invariant :
    (∀ c : BuildContext, Reachable (fun _ => True) c →
      (∀ e ∈ c.context_entries, e.1.absolute = false) ∧
        keysNodup c.context_entries)
    ∧ (∀ c : BuildContext,
      Reachable (fun host => host.parts.contains ".." = false) c →
      ∀ e ∈ c.context_entries, e.1.parts.contains ".." = false) := by
  constructor
  · intro c hreach
    induction hreach with
    | init root =>
      constructor
      · intro e he
        simp [BuildContext.init] at he
      · simp [BuildContext.init, keysNodup]
    | add c host p c₁ hr hP hadd ih =>
      obtain ⟨hcompute, hc₁⟩ := add_ok_inv _ _ _ _ hadd
      constructor
      · intro e he
        rw [hc₁] at he
        have he' : e ∈ setKey c.context_entries p host := he
        rcases mem_setKey _ _ _ _ he' with heq | hmem
        · rw [heq]
          exact compute_ok_absolute c host p hcompute
        · exact ih.1 e hmem
      · rw [hc₁]
        exact keysNodup_setKey _ _ _ ih.2
    | ext a b c₁ hra hrb hext iha ihb =>
      have hc₁ := extend_ok_inv a b c₁ hext
      constructor
      · intro e he
        rw [hc₁] at he
        have he' : e ∈ dictUpdate a.context_entries b.context_entries := he
        rcases mem_dictUpdate _ _ _ he' with hmem | hmem
        · exact iha.1 e hmem
        · exact ihb.1 e hmem
      · rw [hc₁]
        exact keysNodup_dictUpdate _ _ iha.2
  · intro c hreach
    induction hreach with
    | init root =>
      intro e he
      simp [BuildContext.init] at he
    | add c host p c₁ hr hP hadd ih =>
      obtain ⟨hcompute, hc₁⟩ := add_ok_inv _ _ _ _ hadd
      intro e he
      rw [hc₁] at he
      have he' : e ∈ setKey c.context_entries p host := he
      rcases mem_setKey _ _ _ _ he' with heq | hmem
      · rw [heq]
        show p.parts.contains ".." = false
        rw [contains_false_iff]
        intro hmem
        have hhostmem := compute_ok_mem c host p hcompute ".." hmem
        rw [contains_false_iff] at hP
        exact hP hhostmem
      · exact ih e hmem
    | ext a b c₁ hra hrb hext iha ihb =>
      have hc₁ := extend_ok_inv a b c₁ hext
      intro e he
      rw [hc₁] at he
      have he' : e ∈ dictUpdate a.context_entries b.context_entries := he
      rcases mem_dictUpdate _ _ _ he' with hmem | hmem
      · exact iha e hmem
      · exact ihb e hmem

/-- Counterexample for C7 as stated: with context root `/a`, registering
the host path `/a/../b` succeeds (pathlib does not resolve `..`) and
stores the context path `../b`, which contains a `..` component. -/
theorem claim_C7_counterexample :
    ((BuildContext.init (some (parsePath "/a"))).add_context_entry
        (parsePath "/a/../b")).1 = Except.ok (parsePath "../b")
    ∧ (parsePath "../b", parsePath "/a/../b") ∈
        ((BuildContext.init (some (parsePath "/a"))).add_context_entry
          (parsePath "/a/../b")).2.context_entries
    ∧ (parsePath "../b").parts.contains ".." = true :=
  ⟨by rfl, by decide, by decide⟩

/-- Witness for C7 (amended): a context built by one successful
registration has unique keys. -/
theorem claim_C7_reachable_invariant_witness :
    keysNodup (((BuildContext.init (some (parsePath "/r"))).add_context_entry
      (parsePath "/r/x")).2.context_entries) :=
  (claim_C7_reachable_invariant.1 _
    (Reachable.add _ (parsePath "/r/x") (parsePath "x") _
      (Reachable.init (some (parsePath "/r"))) trivial (by rfl))).2

end ReachableClaims

section BuildGenericLemmas

theorem buildStep_invalid (dest : PyPath) (fs : FS) (e : PyPath × PyPath)
    (h : (e.1.absolute || e.1.parts.contains "..") = true) :
    buildStep dest fs e = Except.error (CtxError.invalidContextPath e.1) := by
  unfold buildStep
  rw [if_pos h]

theorem buildStep_missing (dest : PyPath) (fs : FS) (e : PyPath × PyPath)
    (hvalid : (e.1.absolute || e.1.parts.contains "..") = false)
    (hmiss : fsGet fs e.2 = none) :
    buildStep dest fs e = Except.error (CtxError.missingHostPath e.2) := by
  unfold buildStep
  simp only [hvalid, Bool.false_eq_true, if_false, hmiss, Option.isNone_none, if_true]

theorem buildStep_other (dest : PyPath) (fs : FS) (e : PyPath × PyPath)
    (hvalid : (e.1.absolute || e.1.parts.contains "..") = false)
    (hother : fsGet fs e.2 = some FSNode.other) :
    buildStep dest fs e = Except.error (CtxError.notFileOrDir e.2) := by
  unfold buildStep
  simp only [hvalid, Bool.false_eq_true, if_false, hother, Option.isNone_some]

theorem buildStep_ok_valid (dest : PyPath) (fs : FS) (e : PyPath × PyPath) (fs₁ : FS)
    (h : buildStep dest fs e = Except.ok fs₁) :
    e.1.absolute = false ∧ e.1.parts.contains ".." = false := by
  by_cases hcond : (e.1.absolute || e.1.parts.contains "..") = true
  · rw [buildStep_invalid dest fs e hcond] at h
    simp at h
  · have hfalse : (e.1.absolute || e.1.parts.contains "..") = false := by
      cases hb : (e.1.absolute || e.1.parts.contains "..")
      · rfl
      · exact absurd hb hcond
    rw [Bool.or_eq_false_iff] at hfalse
    exact hfalse

theorem buildEntries_ok_valid (dest : PyPath) (entries : List (PyPath × PyPath)) :
    ∀ (fs fs' : FS), buildEntries dest entries fs = (Except.ok (), fs') →
    ∀ e ∈ entries, e.1.absolute = false ∧ e.1.parts.contains ".." = false := by
  induction entries with
  | nil =>
    intro fs fs' h e he
    simp at he
  | cons e₀ rest ih =>
    intro fs fs' h e he
    unfold buildEntries at h
    cases hstep : buildStep dest fs e₀ with
    | error err =>
      rw [hstep] at h
      simp at h
    | ok fs₁ =>
      rw [hstep] at h
      have h' : buildEntries dest rest fs₁ = (Except.ok (), fs') := h
      rcases List.mem_cons.mp he with heq | hmem
      · rw [heq]
        exact buildStep_ok_valid dest fs e₀ fs₁ hstep
      · exact ih fs₁ fs' h' e hmem

theorem buildEntries_append (dest : PyPath) (l₁ l₂ : List (PyPath × PyPath)) :
    ∀ fs : FS, buildEntries dest (l₁ ++ l₂) fs =
      match buildEntries dest l₁ fs with
      | (Except.ok _, fs₁) => buildEntries dest l₂ fs₁
      | (Except.error e, fs₁) => (Except.error e, fs₁) := by
  induction l₁ with
  | nil =>
    intro fs
    rfl
  | cons e₀ rest ih =>
    intro fs
    have hL : buildEntries dest ((e₀ :: rest) ++ l₂) fs =
        (match buildStep dest fs e₀ with
         | Except.error err => (Except.error err, fs)
         | Except.ok fs₁ => buildEntries dest (rest ++ l₂) fs₁) := rfl
    have hR : buildEntries dest (e₀ :: rest) fs =
        (match buildStep dest fs e₀ with
         | Except.error err => (Except.error err, fs)
         | Except.ok fs₁ => buildEntries dest rest fs₁) := rfl
    rw [hL, hR]
    cases hstep : buildStep dest fs e₀ with
    | error err => rfl
    | ok fs₁ => exact ih fs₁

theorem parent_under (p : PyPath) : underPath p.parent p = true := by
  rw [underPath_iff]
  constructor
  · rfl
  · show partsLe p.parts.dropLast p.parts = true
    rw [List.dropLast_eq_take]
    exact partsLe_take _ _

theorem chain_under (p q : PyPath) (h : q ∈ ancestors p ++ [p]) :
    underPath q p = true := by
  rcases List.mem_append.mp h with h | h
  · exact underPath_of_mem_ancestors _ _ h
  · rw [List.mem_singleton] at h
    rw [h]
    exact underPath_refl p

theorem mem_ancestors_of_under (q p : PyPath) (h : underPath q p = true)
    (hne : q ≠ p) : q ∈ ancestors p := by
  rw [underPath_iff] at h
  obtain ⟨t, ht⟩ := (partsLe_iff_append _ _).mp h.2
  rw [mem_ancestors]
  refine ⟨q.parts.length, ?_, ?_⟩
  · have hlen : q.parts.length ≤ p.parts.length := by
      rw [ht]
      simp
    rcases Nat.lt_or_ge q.parts.length p.parts.length with hlt | hge
    · exact hlt
    · exfalso
      apply hne
      have hteq : t = [] := by
        have : p.parts.length = q.parts.length + t.length := by
          rw [ht]
          simp
        have : t.length = 0 := by omega
        exact List.length_eq_zero.mp this
      rw [hteq, List.append_nil] at ht
      cases q with
      | mk qa qp =>
        cases p with
        | mk pa pp =>
          simp only at h ht
          simp [PyPath.mk.injEq, h.1, ht]
  · cases q with
    | mk qa qp =>
      simp only [PyPath.mk.injEq]
      constructor
      · exact h.1
      · rw [ht]
        simp only at ht ⊢
        rw [List.take_left]

theorem buildStep_changes (dest : PyPath) (fs : FS) (e : PyPath × PyPath) (fs₁ : FS)
    (h : buildStep dest fs e = Except.ok fs₁) :
    ∀ q, fsGet fs₁ q ≠ fsGet fs q →
      underPath dest q = true ∨
        (q ∈ ancestors dest ∧ fsGet fs q = none ∧ fsGet fs₁ q = some FSNode.dir) := by
  obtain ⟨habs, hdd⟩ := buildStep_ok_valid dest fs e fs₁ h
  have hvalid : (e.1.absolute || e.1.parts.contains "..") = false := by
    rw [habs, hdd]
    rfl
  have hunder_dest_dst : underPath dest (dest.join e.1) = true :=
    underPath_join_rel dest e.1 habs
  cases hhost : fsGet fs e.2 with
  | none =>
    rw [buildStep_missing dest fs e hvalid hhost] at h
    simp at h
  | some node =>
    cases node with
    | other =>
      rw [buildStep_other dest fs e hvalid hhost] at h
      simp at h
    | file content =>
      unfold buildStep at h
      simp only [hvalid, Bool.false_eq_true, if_false, hhost, Option.isNone_some] at h
      cases hmk : mkdirParents fs (dest.join e.1).parent with
      | error err =>
        rw [hmk] at h
        simp at h
      | ok fsm =>
        rw [hmk] at h
        injection h with h
        obtain ⟨hfsm, _⟩ := mkdirParents_ok_inv _ _ _ hmk
        intro q hq
        rw [← h] at hq
        by_cases hcopych : fsGet (copy2 fsm e.2 (dest.join e.1)) q = fsGet fsm q
        · rw [hcopych] at hq
          rw [hfsm, fsGet_mkdirFold] at hq
          by_cases hcond : q ∈ (ancestors (dest.join e.1).parent
              ++ [(dest.join e.1).parent]) ∧ fsGet fs q = none
          · have hqdir : fsGet fsm q = some FSNode.dir := by
              rw [hfsm, fsGet_mkdirFold, if_pos hcond]
            have hqp : underPath q (dest.join e.1) = true :=
              underPath_trans _ _ _ (chain_under _ q hcond.1) (parent_under _)
            rcases underPath_comparable q dest (dest.join e.1) hqp hunder_dest_dst
              with hqd | hdq
            · by_cases hqe : q = dest
              · left
                rw [hqe]
                exact underPath_refl dest
              · right
                refine ⟨mem_ancestors_of_under q dest hqd hqe, hcond.2, ?_⟩
                rw [← h, hcopych]
                exact hqdir
            · left
              exact hdq
          · rw [if_neg hcond] at hq
            exact absurd rfl hq
        · rcases copy2_changes fsm e.2 (dest.join e.1) q hcopych with hqe | hqe
          · left
            rw [hqe]
            exact hunder_dest_dst
          · left
            rw [hqe]
            exact underPath_trans _ _ _ hunder_dest_dst (underPath_join_rel _ _ rfl)
    | dir =>
      unfold buildStep at h
      simp only [hvalid, Bool.false_eq_true, if_false, hhost, Option.isNone_some] at h
      cases hmk : mkdirParents fs (dest.join e.1).parent with
      | error err =>
        rw [hmk] at h
        simp at h
      | ok fsm =>
        rw [hmk] at h
        injection h with h
        obtain ⟨hfsm, _⟩ := mkdirParents_ok_inv _ _ _ hmk
        intro q hq
        rw [← h] at hq
        by_cases hcopych : fsGet (copytree fsm e.2 (dest.join e.1)) q = fsGet fsm q
        · rw [hcopych] at hq
          rw [hfsm, fsGet_mkdirFold] at hq
          by_cases hcond : q ∈ (ancestors (dest.join e.1).parent
              ++ [(dest.join e.1).parent]) ∧ fsGet fs q = none
          · have hqdir : fsGet fsm q = some FSNode.dir := by
              rw [hfsm, fsGet_mkdirFold, if_pos hcond]
            have hqp : underPath q (dest.join e.1) = true :=
              underPath_trans _ _ _ (chain_under _ q hcond.1) (parent_under _)
            rcases underPath_comparable q dest (dest.join e.1) hqp hunder_dest_dst
              with hqd | hdq
            · by_cases hqe : q = dest
              · left
                rw [hqe]
                exact underPath_refl dest
              · right
                refine ⟨mem_ancestors_of_under q dest hqd hqe, hcond.2, ?_⟩
                rw [← h, hcopych]
                exact hqdir
            · left
              exact hdq
          · rw [if_neg hcond] at hq
            exact absurd rfl hq
        · obtain ⟨kv, _, hkvu, hkvq⟩ :=
            copytreeAux_changes e.2 (dest.join e.1) fsm fsm q hcopych
          left
          rw [hkvq]
          exact underPath_trans _ _ _ hunder_dest_dst (underPath_rebase _ _ _)

theorem buildEntries_changes (dest : PyPath) (entries : List (PyPath × PyPath)) :
    ∀ (fs : FS) (res : Except CtxError Unit) (fs' : FS),
      buildEntries dest entries fs = (res, fs') →
      ∀ q, fsGet fs' q ≠ fsGet fs q →
        underPath dest q = true ∨
          (q ∈ ancestors dest ∧ fsGet fs q = none ∧
            fsGet fs' q = some FSNode.dir) := by
  induction entries with
  | nil =>
    intro fs res fs' h q hq
    have : fs' = fs := by
      injection h with h1 h2
      exact h2.symm
    rw [this] at hq
    exact absurd rfl hq
  | cons e₀ rest ih =>
    intro fs res fs' h q hq
    unfold buildEntries at h
    cases hstep : buildStep dest fs e₀ with
    | error err =>
      rw [hstep] at h
      have : fs' = fs := by
        injection h with h1 h2
        exact h2.symm
      rw [this] at hq
      exact absurd rfl hq
    | ok fs₁ =>
      rw [hstep] at h
      have h' : buildEntries dest rest fs₁ = (res, fs') := h
      by_cases hch2 : fsGet fs' q = fsGet fs₁ q
      · have hch1 : fsGet fs₁ q ≠ fsGet fs q := by
          rw [← hch2]
          exact hq
        rcases buildStep_changes dest fs e₀ fs₁ hstep q hch1 with hu | ⟨hanc, hnone, hdirq⟩
        · exact Or.inl hu
        · refine Or.inr ⟨hanc, hnone, ?_⟩
          rw [hch2]
          exact hdirq
      · rcases ih fs₁ res fs' h' q hch2 with hu | ⟨hanc, hnone₁, hdirq⟩
        · exact Or.inl hu
        · by_cases hch1 : fsGet fs₁ q = fsGet fs q
          · rw [hch1] at hnone₁
            exact Or.inr ⟨hanc, hnone₁, hdirq⟩
          · rcases buildStep_changes dest fs e₀ fs₁ hstep q hch1 with hu | ⟨_, _, hdir₁⟩
            · exact Or.inl hu
            · rw [hnone₁] at hdir₁
              simp at hdir₁

theorem build_changes (c : BuildContext) (fs : FS) (dest : PyPath) :
    ∀ q, fsGet (c.build fs dest).2 q ≠ fsGet fs q →
      underPath dest q = true ∨
        (q ∈ ancestors dest ∧ fsGet fs q = none ∧
          fsGet (c.build fs dest).2 q = some FSNode.dir) := by
  intro q hq
  unfold BuildContext.build at hq ⊢
  cases hmk : mkdirParents fs dest with
  | error err =>
    rw [hmk] at hq
    exact absurd rfl hq
  | ok fs₀ =>
    rw [hmk] at hq
    obtain ⟨hfs₀, _⟩ := mkdirParents_ok_inv _ _ _ hmk
    have hq' : fsGet (buildEntries dest c.context_entries fs₀).2 q ≠ fsGet fs q := hq
    show underPath dest q = true ∨
      (q ∈ ancestors dest ∧ fsGet fs q = none ∧
        fsGet (buildEntries dest c.context_entries fs₀).2 q = some FSNode.dir)
    by_cases hch2 : fsGet (buildEntries dest c.context_entries fs₀).2 q = fsGet fs₀ q
    · have hch1 : fsGet fs₀ q ≠ fsGet fs q := by
        rw [← hch2]
        exact hq'
      rw [hfs₀, fsGet_mkdirFold] at hch1
      by_cases hcond : q ∈ (ancestors dest ++ [dest]) ∧ fsGet fs q = none
      · have hqdir : fsGet fs₀ q = some FSNode.dir := by
          rw [hfs₀, fsGet_mkdirFold, if_pos hcond]
        rcases List.mem_append.mp hcond.1 with hmem | hmem
        · refine Or.inr ⟨hmem, hcond.2, ?_⟩
          rw [hch2]
          exact hqdir
        · rw [List.mem_singleton] at hmem
          left
          rw [hmem]
          exact underPath_refl dest
      · rw [if_neg hcond] at hch1
        exact absurd rfl hch1
    · rcases buildEntries_changes dest c.context_entries fs₀
        (buildEntries dest c.context_entries fs₀).1
        (buildEntries dest c.context_entries fs₀).2 rfl q hch2 with hu | ⟨hanc, hnone₀, hdirq⟩
      · exact Or.inl hu
      · by_cases hch1 : fsGet fs₀ q = fsGet fs q
        · rw [hch1] at hnone₀
          exact Or.inr ⟨hanc, hnone₀, hdirq⟩
        · rw [hfs₀, fsGet_mkdirFold] at hch1
          by_cases hcond : q ∈ (ancestors dest ++ [dest]) ∧ fsGet fs q = none
          · have hqdir : fsGet fs₀ q = some FSNode.dir := by
              rw [hfs₀, fsGet_mkdirFold, if_pos hcond]
            rw [hnone₀] at hqdir
            simp at hqdir
          · rw [if_neg hcond] at hch1
            exact absurd rfl hch1

theorem build_split_spec (c : BuildContext) (fs : FS) (dest : PyPath)
    (done rest' : List (PyPath × PyPath))
    (hsplit : c.context_entries = done ++ rest')
    (hnd : keysNodup fs)
    (hanc : ∀ q ∈ ancestors dest, noneOrDir (fsGet fs q) = true)
    (hdest0 : ∀ kv ∈ fs, underPath dest kv.1 = true → kv.1 = dest ∧ kv.2 = FSNode.dir)
    (hctx : ∀ e ∈ done, e.1.absolute = false ∧
      e.1.parts.contains ".." = false ∧ e.1.parts ≠ [])
    (hhost : ∀ e ∈ done, isFileOrDir (fsGet fs e.2) = true)
    (haway : ∀ e ∈ done, underPath e.2 dest = false)
    (hpw : List.Pairwise (fun e₁ e₂ => partsLe e₁.1.parts e₂.1.parts = false ∧
      partsLe e₂.1.parts e₁.1.parts = false) done) :
    ∃ fs₁, c.build fs dest = buildEntries dest rest' fs₁ ∧
      keysNodup fs₁ ∧ destReady fs₁ dest ∧
      (∀ q, fsGet fs₁ q ≠ fsGet fs q →
        (∃ e ∈ done, underPath (dest.join e.1) q = true) ∨
        (fsGet fs q = none ∧ fsGet fs₁ q = some FSNode.dir ∧
          (q = dest ∨ q ∈ ancestors dest ∨
            ∃ e ∈ done, q ∈ ancestors (dest.join e.1)))) := by
  have hdestopt : noneOrDir (fsGet fs dest) = true := by
    cases hfd : fsGet fs dest with
    | none => rfl
    | some n =>
      have hkv := lookup_mem fs dest n hfd
      have hdir : n = FSNode.dir := (hdest0 _ hkv (underPath_refl dest)).2
      rw [hdir]
      rfl
  have hchainall : ∀ q ∈ ancestors dest ++ [dest], noneOrDir (fsGet fs q) = true := by
    intro q hq
    rcases List.mem_append.mp hq with hq | hq
    · exact hanc q hq
    · rw [List.mem_singleton] at hq
      rw [hq]
      exact hdestopt
  have hmk := mkdirParents_ok fs dest hchainall
  have hfs₀nd : keysNodup (mkdirFold (ancestors dest ++ [dest]) fs) :=
    keysNodup_mkdirFold _ _ hnd
  have hpres : ∀ q n, fsGet fs q = some n →
      fsGet (mkdirFold (ancestors dest ++ [dest]) fs) q = some n :=
    fun q n hq => mkdirFold_pres_some _ _ _ _ hq
  have hfs₀dest : fsGet (mkdirFold (ancestors dest ++ [dest]) fs) dest
      = some FSNode.dir := by
    rw [fsGet_mkdirFold]
    cases hfd : fsGet fs dest with
    | none =>
      rw [if_pos ⟨List.mem_append_right _ (List.mem_singleton.mpr rfl), rfl⟩]
    | some n =>
      have hkv := lookup_mem fs dest n hfd
      have hdir : n = FSNode.dir := (hdest0 _ hkv (underPath_refl dest)).2
      rw [if_neg (fun hcond => absurd hcond.2 (by simp))]
      rw [hdir]
  have hfs₀anc : ∀ q ∈ ancestors dest,
      fsGet (mkdirFold (ancestors dest ++ [dest]) fs) q = some FSNode.dir := by
    intro q hq
    rw [fsGet_mkdirFold]
    cases hfq : fsGet fs q with
    | none =>
      rw [if_pos ⟨List.mem_append_left _ hq, rfl⟩]
    | some n =>
      have hnd1 := hanc q hq
      rw [hfq] at hnd1
      have hdir : n = FSNode.dir := by
        cases n with
        | file content => simp [noneOrDir] at hnd1
        | dir => rfl
        | other => simp [noneOrDir] at hnd1
      rw [if_neg (fun hcond => absurd hcond.2 (by simp))]
      rw [hdir]
  have hready₀ : destReady (mkdirFold (ancestors dest ++ [dest]) fs) dest :=
    ⟨hfs₀anc, hfs₀dest⟩
  have hq_none : ∀ q, underPath dest q = true → q ≠ dest → fsGet fs q = none := by
    intro q hq hqne
    cases hfq : fsGet fs q with
    | none => rfl
    | some n =>
      have hkv := lookup_mem fs q n hfq
      exact absurd (hdest0 _ hkv hq).1 hqne
  have hnot_chain : ∀ (q : PyPath), dest.parts.length < q.parts.length →
      q ∉ ancestors dest ++ [dest] := by
    intro q hlen hmem
    rcases List.mem_append.mp hmem with hmem | hmem
    · have := mem_ancestors_length _ _ hmem
      omega
    · rw [List.mem_singleton] at hmem
      rw [hmem] at hlen
      omega
  have hfresh₀ : ∀ e ∈ done, ∀ q,
      underPath (dest.join e.1) q = true →
      fsGet (mkdirFold (ancestors dest ++ [dest]) fs) q = none := by
    intro e he q hq
    have habs := (hctx e he).1
    have hclen : 0 < e.1.parts.length := List.length_pos.mpr (hctx e he).2.2
    have hud : underPath dest q = true := under_join_under_dest dest e.1 q habs hq
    have hlen := under_join_length dest e.1 q habs hq
    have hqne : q ≠ dest := by
      intro hcontra
      rw [hcontra] at hlen
      omega
    have hfsq := hq_none q hud hqne
    rw [fsGet_mkdirFold]
    rw [if_neg (fun hcond => hnot_chain q (by omega) hcond.1)]
    exact hfsq
  have hchains₀ : ∀ e ∈ done, ∀ q ∈ ancestors (dest.join e.1),
      noneOrDir (fsGet (mkdirFold (ancestors dest ++ [dest]) fs) q) = true := by
    intro e he q hq
    have habs := (hctx e he).1
    rcases anc_join_cases dest e.1 q habs hq with hq2 | hq2 | ⟨j, hj0, hjlt, rfl⟩
    · rw [hfs₀anc q hq2]
      rfl
    · rw [hq2, hfs₀dest]
      rfl
    · have hud := inner_under_dest dest e.1 j
      have hlentake : (e.1.parts.take j).length = j := by
        rw [List.length_take]
        omega
      have hqne :
          ({ absolute := dest.absolute, parts := dest.parts ++ e.1.parts.take j } :
            PyPath) ≠ dest := by
        intro hcontra
        have hparts := congrArg PyPath.parts hcontra
        simp only at hparts
        have htake : e.1.parts.take j = [] := by
          have : dest.parts ++ e.1.parts.take j = dest.parts ++ [] := by
            rw [hparts]
            simp
          exact List.append_cancel_left this
        rw [htake] at hlentake
        simp at hlentake
        omega
      have hfsq := hq_none _ hud hqne
      rw [fsGet_mkdirFold]
      rw [if_neg (fun hcond => hnot_chain _ (by simp [hlentake]; omega) hcond.1)]
      rw [hfsq]
      rfl
  have hhost₀ : ∀ e ∈ done,
      isFileOrDir (fsGet (mkdirFold (ancestors dest ++ [dest]) fs) e.2) = true := by
    intro e he
    rcases isFileOrDir_cases _ (hhost e he) with ⟨content, hf⟩ | hf
    · rw [hpres _ _ hf]
      rfl
    · rw [hpres _ _ hf]
      rfl
  have haway₀ : ∀ e ∈ done,
      underPath e.2 dest = false ∧ underPath dest e.2 = false := by
    intro e he
    refine ⟨haway e he, ?_⟩
    cases hud : underPath dest e.2 with
    | false => rfl
    | true =>
      exfalso
      have hex : ∃ n, fsGet fs e.2 = some n := by
        rcases isFileOrDir_cases _ (hhost e he) with ⟨content, hf⟩ | hf
        · exact ⟨_, hf⟩
        · exact ⟨_, hf⟩
      obtain ⟨n, hf⟩ := hex
      have hkv := lookup_mem fs e.2 n hf
      have heq : e.2 = dest := (hdest0 _ hkv hud).1
      have hfalse := haway e he
      rw [heq, underPath_refl] at hfalse
      simp at hfalse
  obtain ⟨fs₁, hrun, hnd₁, hready₁, hcont₁, _, _⟩ :=
    buildEntries_spec dest done (mkdirFold (ancestors dest ++ [dest]) fs)
      hfs₀nd hready₀ hctx hhost₀ haway₀ hfresh₀ hchains₀ hpw
  refine ⟨fs₁, ?_, hnd₁, hready₁, ?_⟩
  · show c.build fs dest = buildEntries dest rest' fs₁
    unfold BuildContext.build
    rw [hmk]
    show buildEntries dest c.context_entries (mkdirFold (ancestors dest ++ [dest]) fs)
      = buildEntries dest rest' fs₁
    rw [hsplit, buildEntries_append, hrun]
  · intro q hq
    by_cases hch2 : fsGet fs₁ q
        = fsGet (mkdirFold (ancestors dest ++ [dest]) fs) q
    · have hch1 : fsGet (mkdirFold (ancestors dest ++ [dest]) fs) q ≠ fsGet fs q := by
        rw [← hch2]
        exact hq
      rw [fsGet_mkdirFold] at hch1
      by_cases hcond : q ∈ (ancestors dest ++ [dest]) ∧ fsGet fs q = none
      · have hqdir : fsGet (mkdirFold (ancestors dest ++ [dest]) fs) q
            = some FSNode.dir := by
          rw [fsGet_mkdirFold, if_pos hcond]
        refine Or.inr ⟨hcond.2, ?_, ?_⟩
        · rw [hch2]
          exact hqdir
        · rcases List.mem_append.mp hcond.1 with hmem | hmem
          · exact Or.inr (Or.inl hmem)
          · rw [List.mem_singleton] at hmem
            exact Or.inl hmem
      · rw [if_neg hcond] at hch1
        exact absurd rfl hch1
    · rcases hcont₁ q hch2 with ⟨e, he, hu⟩ | ⟨hnone₀, hdirq, e, he, hanc₁⟩
      · exact Or.inl ⟨e, he, hu⟩
      · by_cases hch1 : fsGet (mkdirFold (ancestors dest ++ [dest]) fs) q = fsGet fs q
        · rw [hch1] at hnone₀
          exact Or.inr ⟨hnone₀, hdirq, Or.inr (Or.inr ⟨e, he, hanc₁⟩)⟩
        · rw [fsGet_mkdirFold] at hch1
          by_cases hcond : q ∈ (ancestors dest ++ [dest]) ∧ fsGet fs q = none
          · have hqdir : fsGet (mkdirFold (ancestors dest ++ [dest]) fs) q
                = some FSNode.dir := by
              rw [fsGet_mkdirFold, if_pos hcond]
            rw [hnone₀] at hqdir
            simp at hqdir
          · rw [if_neg hcond] at hch1
            exact absurd rfl hch1

end BuildGenericLemmas

section BuildClaims

/-- C4 (amended): if every registered host path exists as a regular file
or directory, every context path is valid (relative, no `..`), non-empty,
and no context path is a prefix of another, then `build(dest)` into a
fresh destination (dest absent or an empty directory, its ancestors
absent or directories, and dest not inside any registered host tree)
succeeds, creates `dest` and its missing parents, and materializes every
entry: `dest/ctx` exists, a file entry is byte-identical to its host
file, and a directory entry's full host subtree is reproduced. -/
theorem claim_C4_build_materializes
    (c : BuildContext) (fs : FS) (dest : PyPath)
    (hnd : keysNodup fs)
    (hanc : ∀ q ∈ ancestors dest, noneOrDir (fsGet fs q) = true)
    (hdest0 : ∀ kv ∈ fs, underPath dest kv.1 = true → kv.1 = dest ∧ kv.2 = FSNode.dir)
    (hctx : ∀ e ∈ c.context_entries, e.1.absolute = false ∧
      e.1.parts.contains ".." = false ∧ e.1.parts ≠ [])
    (hhost : ∀ e ∈ c.context_entries, isFileOrDir (fsGet fs e.2) = true)
    (haway : ∀ e ∈ c.context_entries, underPath e.2 dest = false)
    (hpw : List.Pairwise (fun e₁ e₂ => partsLe e₁.1.parts e₂.1.parts = false ∧
      partsLe e₂.1.parts e₁.1.parts = false) c.context_entries) :
    ∃ fs', c.build fs dest = (Except.ok (), fs') ∧
      fsGet fs' dest = some FSNode.dir ∧
      (∀ q ∈ ancestors dest, fsGet fs' q = some FSNode.dir) ∧
      (∀ e ∈ c.context_entries, ∃ node, fsGet fs' (dest.join e.1) = some node) ∧
      (∀ e ∈ c.context_entries, ∀ content,
        fsGet fs e.2 = some (FSNode.file content) →
        fsGet fs' (dest.join e.1) = some (FSNode.file content)) ∧
      (∀ e ∈ c.context_entries, fsGet fs e.2 = some FSNode.dir →
        ∀ r n, underPath e.2 r = true → fsGet fs r = some n →
          fsGet fs' (rebase e.2 (dest.join e.1) r) = some n) := by
  obtain ⟨fs', hbuild, hnd', hdest', hanc', hfile', hdir'⟩ :=
    build_spec c fs dest hnd hanc hdest0 hctx hhost haway hpw
  refine ⟨fs', hbuild, hdest', hanc', ?_, hfile', hdir'⟩
  intro e he
  rcases isFileOrDir_cases _ (hhost e he) with ⟨content, hf⟩ | hf
  · exact ⟨_, hfile' e he content hf⟩
  · refine ⟨FSNode.dir, ?_⟩
    have hd := hdir' e he hf e.2 FSNode.dir (underPath_refl _) hf
    rw [rebase_self] at hd
    exact hd

/-- Counterexample for C4 as stated: merging a context rooted at `/r1`
holding the directory `/r1/a` with a context rooted at `/r2` holding the
file `/r2/a/b` yields context paths `a` and `a/b`, one a prefix of the
other.  All hosts exist, all context paths are valid, and `build`
succeeds, yet afterwards `dest/a/b` holds the content of `/r2/a/b`, so
the subtree of the directory entry `(a, /r1/a)` (whose own `a/b` has
different content) is NOT reproduced. -/
theorem claim_C4_counterexample :
    ((((BuildContext.init (some (parsePath "/r1"))).add_context_entry
          (parsePath "/r1/a")).2.extend
        (((BuildContext.init (some (parsePath "/r2"))).add_context_entry
          (parsePath "/r2/a/b")).2)).2.context_entries
      = [(parsePath "a", parsePath "/r1/a"), (parsePath "a/b", parsePath "/r2/a/b")])
    ∧ fsGet [(parsePath "/", FSNode.dir), (parsePath "/r1", FSNode.dir),
        (parsePath "/r1/a", FSNode.dir), (parsePath "/r1/a/b", FSNode.file [1]),
        (parsePath "/r2", FSNode.dir), (parsePath "/r2/a", FSNode.dir),
        (parsePath "/r2/a/b", FSNode.file [2])] (parsePath "/r1/a/b")
      = some (FSNode.file [1])
    ∧ (((((BuildContext.init (some (parsePath "/r1"))).add_context_entry
          (parsePath "/r1/a")).2.extend
        (((BuildContext.init (some (parsePath "/r2"))).add_context_entry
          (parsePath "/r2/a/b")).2)).2.build
        [(parsePath "/", FSNode.dir), (parsePath "/r1", FSNode.dir),
         (parsePath "/r1/a", FSNode.dir), (parsePath "/r1/a/b", FSNode.file [1]),
         (parsePath "/r2", FSNode.dir), (parsePath "/r2/a", FSNode.dir),
         (parsePath "/r2/a/b", FSNode.file [2])] (parsePath "/d")).1
      = Except.ok ())
    ∧ fsGet ((((BuildContext.init (some (parsePath "/r1"))).add_context_entry
          (parsePath "/r1/a")).2.extend
        (((BuildContext.init (some (parsePath "/r2"))).add_context_entry
          (parsePath "/r2/a/b")).2)).2.build
        [(parsePath "/", FSNode.dir), (parsePath "/r1", FSNode.dir),
         (parsePath "/r1/a", FSNode.dir), (parsePath "/r1/a/b", FSNode.file [1]),
         (parsePath "/r2", FSNode.dir), (parsePath "/r2/a", FSNode.dir),
         (parsePath "/r2/a/b", FSNode.file [2])] (parsePath "/d")).2
        (parsePath "/d/a/b")
      = some (FSNode.file [2])
    ∧ some (FSNode.file [2]) ≠ some (FSNode.file [1]) :=
  ⟨by decide, by decide, by rfl, by decide, by decide⟩

/-- Witness for C4 (amended): one registered file `/s/f.txt` is
materialized into a fresh `/d`. -/
theorem claim_C4_build_materializes_witness :
    ∃ fs', (((BuildContext.init none).add_context_entry (parsePath "/s/f.txt")).2).build
        [(parsePath "/", FSNode.dir), (parsePath "/s", FSNode.dir),
         (parsePath "/s/f.txt", FSNode.file [7])] (parsePath "/d")
      = (Except.ok (), fs') ∧
      fsGet fs' (parsePath "/d") = some FSNode.dir ∧
      (∀ q ∈ ancestors (parsePath "/d"), fsGet fs' q = some FSNode.dir) ∧
      (∀ e ∈ (((BuildContext.init none).add_context_entry
          (parsePath "/s/f.txt")).2).context_entries,
        ∃ node, fsGet fs' ((parsePath "/d").join e.1) = some node) ∧
      (∀ e ∈ (((BuildContext.init none).add_context_entry
          (parsePath "/s/f.txt")).2).context_entries, ∀ content,
        fsGet [(parsePath "/", FSNode.dir), (parsePath "/s", FSNode.dir),
          (parsePath "/s/f.txt", FSNode.file [7])] e.2 = some (FSNode.file content) →
        fsGet fs' ((parsePath "/d").join e.1) = some (FSNode.file content)) ∧
      (∀ e ∈ (((BuildContext.init none).add_context_entry
          (parsePath "/s/f.txt")).2).context_entries,
        fsGet [(parsePath "/", FSNode.dir), (parsePath "/s", FSNode.dir),
          (parsePath "/s/f.txt", FSNode.file [7])] e.2 = some FSNode.dir →
        ∀ r n, underPath e.2 r = true →
          fsGet [(parsePath "/", FSNode.dir), (parsePath "/s", FSNode.dir),
            (parsePath "/s/f.txt", FSNode.file [7])] r = some n →
          fsGet fs' (rebase e.2 ((parsePath "/d").join e.1) r) = some n) :=
  claim_C4_build_materializes
    (((BuildContext.init none).add_context_entry (parsePath "/s/f.txt")).2)
    [(parsePath "/", FSNode.dir), (parsePath "/s", FSNode.dir),
     (parsePath "/s/f.txt", FSNode.file [7])] (parsePath "/d")
    (by decide) (by decide) (by decide) (by decide) (by decide) (by decide) (by decide)

/-- C5: a registered entry whose context path is absolute or contains a
`..` component makes `build(dest)` fail: the run never returns success;
every filesystem change of any `build` run stays inside the `dest` tree
except for creating `dest`'s own missing ancestor directories; and when
every other entry passes its checks (and the destination is creatable),
the raised error is exactly `invalidContextPath` on the crafted entry. -/
theorem claim_C5_path_escape :
    (∀ (c : BuildContext) (fs : FS) (dest : PyPath) (e : PyPath × PyPath),
      e ∈ c.context_entries →
      (e.1.absolute = true ∨ e.1.parts.contains ".." = true) →
      (c.build fs dest).1 ≠ Except.ok ())
    ∧ (∀ (c : BuildContext) (fs : FS) (dest : PyPath) (q : PyPath),
      fsGet (c.build fs dest).2 q ≠ fsGet fs q →
      underPath dest q = true ∨
        (q ∈ ancestors dest ∧ fsGet fs q = none ∧
          fsGet (c.build fs dest).2 q = some FSNode.dir))
    ∧ (∀ (c : BuildContext) (fs : FS) (dest : PyPath)
        (done : List (PyPath × PyPath)) (bad : PyPath × PyPath)
        (rest : List (PyPath × PyPath)),
      c.context_entries = done ++ bad :: rest →
      (bad.1.absolute = true ∨ bad.1.parts.contains ".." = true) →
      keysNodup fs →
      (∀ q ∈ ancestors dest, noneOrDir (fsGet fs q) = true) →
      (∀ kv ∈ fs, underPath dest kv.1 = true → kv.1 = dest ∧ kv.2 = FSNode.dir) →
      (∀ e ∈ done, e.1.absolute = false ∧ e.1.parts.contains ".." = false ∧
        e.1.parts ≠ []) →
      (∀ e ∈ done, isFileOrDir (fsGet fs e.2) = true) →
      (∀ e ∈ done, underPath e.2 dest = false) →
      List.Pairwise (fun e₁ e₂ => partsLe e₁.1.parts e₂.1.parts = false ∧
        partsLe e₂.1.parts e₁.1.parts = false) done →
      (c.build fs dest).1 = Except.error (CtxError.invalidContextPath bad.1)) := by
  refine ⟨?_, ?_, ?_⟩
  · intro c fs dest e he hbad hok
    unfold BuildContext.build at hok
    cases hmk : mkdirParents fs dest with
    | error err =>
      rw [hmk] at hok
      simp at hok
    | ok fs₀ =>
      rw [hmk] at hok
      have hok2 : (buildEntries dest c.context_entries fs₀).1 = Except.ok () := hok
      have heta : buildEntries dest c.context_entries fs₀ =
          ((buildEntries dest c.context_entries fs₀).1,
            (buildEntries dest c.context_entries fs₀).2) := rfl
      have hok' : buildEntries dest c.context_entries fs₀ =
          (Except.ok (), (buildEntries dest c.context_entries fs₀).2) := by
        rw [heta, hok2]
      have hvalid := buildEntries_ok_valid dest c.context_entries fs₀ _ hok' e he
      rcases hbad with hb | hb
      · rw [hvalid.1] at hb
        simp at hb
      · rw [hvalid.2] at hb
        simp at hb
  · intro c fs dest q
    exact build_changes c fs dest q
  · intro c fs dest done bad rest hsplit hbad hnd hanc hdest0 hctxd hhostd hawayd hpwd
    obtain ⟨fs₁, heq, _, _, _⟩ :=
      build_split_spec c fs dest done (bad :: rest) hsplit hnd hanc hdest0
        hctxd hhostd hawayd hpwd
    have hbadcond : (bad.1.absolute || bad.1.parts.contains "..") = true := by
      rcases hbad with hb | hb
      · rw [hb]
        rfl
      · rw [hb]
        simp
    have hstep := buildStep_invalid dest fs₁ bad hbadcond
    rw [heq]
    show (buildEntries dest (bad :: rest) fs₁).1
      = Except.error (CtxError.invalidContextPath bad.1)
    unfold buildEntries
    rw [hstep]

/-- Witness for C5: a single entry with the absolute context path `/abs`
makes `build` raise `invalidContextPath`. -/
theorem claim_C5_path_escape_witness :
    ((BuildContext.mk none [(parsePath "/abs", parsePath "/h")]).build
        [(parsePath "/", FSNode.dir)] (parsePath "/d")).1
      = Except.error (CtxError.invalidContextPath (parsePath "/abs")) :=
  claim_C5_path_escape.2.2 (BuildContext.mk none [(parsePath "/abs", parsePath "/h")])
    [(parsePath "/", FSNode.dir)] (parsePath "/d") []
    (parsePath "/abs", parsePath "/h") [] rfl (Or.inl (by decide)) (by decide)
    (by decide) (by decide) (by decide) (by decide) (by decide) (by decide)

/-- C6: with every context path valid and the entries before the failing
one healthy, a registered host path that is missing at materialization
time raises the not-found error, one that exists but is neither file nor
directory raises the validation error naming it, and in both cases
nothing is written at `dest/ctx_path` for the failing entry (registration
itself never consults the filesystem: `add_context_entry` does not take
the filesystem as an input). -/
theorem claim_C6_missing_host
    (c : BuildContext) (fs : FS) (dest : PyPath)
    (done : List (PyPath × PyPath)) (bad : PyPath × PyPath)
    (rest : List (PyPath × PyPath))
    (hsplit : c.context_entries = done ++ bad :: rest)
    (hnd : keysNodup fs)
    (hanc : ∀ q ∈ ancestors dest, noneOrDir (fsGet fs q) = true)
    (hdest0 : ∀ kv ∈ fs, underPath dest kv.1 = true → kv.1 = dest ∧ kv.2 = FSNode.dir)
    (hctxd : ∀ e ∈ done, e.1.absolute = false ∧ e.1.parts.contains ".." = false ∧
      e.1.parts ≠ [])
    (hhostd : ∀ e ∈ done, isFileOrDir (fsGet fs e.2) = true)
    (hawayd : ∀ e ∈ done, underPath e.2 dest = false)
    (hbadctx : bad.1.absolute = false ∧ bad.1.parts.contains ".." = false ∧
      bad.1.parts ≠ [])
    (hbadaway : underPath dest bad.2 = false)
    (hbadanc : bad.2 ∉ ancestors dest)
    (hpwall : List.Pairwise (fun e₁ e₂ => partsLe e₁.1.parts e₂.1.parts = false ∧
      partsLe e₂.1.parts e₁.1.parts = false) (done ++ [bad])) :
    (fsGet fs bad.2 = none →
      (c.build fs dest).1 = Except.error (CtxError.missingHostPath bad.2))
    ∧ (fsGet fs bad.2 = some FSNode.other →
      (c.build fs dest).1 = Except.error (CtxError.notFileOrDir bad.2))
    ∧ ((fsGet fs bad.2 = none ∨ fsGet fs bad.2 = some FSNode.other) →
      fsGet (c.build fs dest).2 (dest.join bad.1) = none) := by
  obtain ⟨hpwd, _, hrel3⟩ := List.pairwise_append.mp hpwall
  have hrelpw : ∀ e ∈ done, partsLe e.1.parts bad.1.parts = false ∧
      partsLe bad.1.parts e.1.parts = false :=
    fun e he => hrel3 e he bad (List.mem_singleton.mpr rfl)
  obtain ⟨fs₁, heq, hnd₁, hready₁, hcont₁⟩ :=
    build_split_spec c fs dest done (bad :: rest) hsplit hnd hanc hdest0
      hctxd hhostd hawayd hpwd
  have hbadvalid : (bad.1.absolute || bad.1.parts.contains "..") = false := by
    rw [hbadctx.1, hbadctx.2.1]
    rfl
  have hhostpres : fsGet fs₁ bad.2 = fsGet fs bad.2 := by
    by_contra hch
    rcases hcont₁ bad.2 hch with ⟨e, he, hu⟩ | ⟨hnone, hdirq, hloc⟩
    · have habs' := (hctxd e he).1
      have htrue := under_join_under_dest dest e.1 bad.2 habs' hu
      rw [htrue] at hbadaway
      simp at hbadaway
    · rcases hloc with hq | hq | ⟨e, he, hq⟩
      · rw [hq, underPath_refl] at hbadaway
        simp at hbadaway
      · exact hbadanc hq
      · have habs' := (hctxd e he).1
        rcases anc_join_cases dest e.1 bad.2 habs' hq with h2 | h2 | ⟨j, hj0, hjlt, hq2⟩
        · exact hbadanc h2
        · rw [h2, underPath_refl] at hbadaway
          simp at hbadaway
        · rw [hq2, inner_under_dest] at hbadaway
          simp at hbadaway
  have hclen : 0 < bad.1.parts.length := List.length_pos.mpr hbadctx.2.2
  have hdstb_under : underPath dest (dest.join bad.1) = true :=
    underPath_join_rel dest bad.1 hbadctx.1
  have hdstb_len : (dest.join bad.1).parts.length
      = dest.parts.length + bad.1.parts.length := by
    rw [join_rel dest bad.1 hbadctx.1]
    simp
  have hdstb_ne : dest.join bad.1 ≠ dest := by
    intro hcontra
    have hlen := congrArg (fun p : PyPath => p.parts.length) hcontra
    simp only at hlen
    rw [hdstb_len] at hlen
    omega
  have hfs_none : fsGet fs (dest.join bad.1) = none := by
    cases hfq : fsGet fs (dest.join bad.1) with
    | none => rfl
    | some n =>
      have hkv := lookup_mem _ _ _ hfq
      exact absurd (hdest0 _ hkv hdstb_under).1 hdstb_ne
  have hfs₁_none : fsGet fs₁ (dest.join bad.1) = none := by
    by_contra hch0
    have hch : fsGet fs₁ (dest.join bad.1) ≠ fsGet fs (dest.join bad.1) := by
      rw [hfs_none]
      exact hch0
    rcases hcont₁ _ hch with ⟨e, he, hu⟩ | ⟨hnone, hdirq, hloc⟩
    · have habs' := (hctxd e he).1
      rw [under_join_iff dest e.1 bad.1 habs' hbadctx.1] at hu
      have hr := (hrelpw e he).1
      rw [hu] at hr
      simp at hr
    · rcases hloc with hq | hq | ⟨e, he, hq⟩
      · exact hdstb_ne hq
      · have hlq := mem_ancestors_length _ _ hq
        rw [hdstb_len] at hlq
        omega
      · have habs' := (hctxd e he).1
        rcases anc_join_cases dest e.1 _ habs' hq with h2 | h2 | ⟨j, hj0, hjlt, hq2⟩
        · have hlq := mem_ancestors_length _ _ h2
          rw [hdstb_len] at hlq
          omega
        · exact hdstb_ne h2
        · have hparts : dest.parts ++ bad.1.parts = dest.parts ++ e.1.parts.take j := by
            have hpp := congrArg PyPath.parts hq2
            rw [join_rel dest bad.1 hbadctx.1] at hpp
            simpa using hpp
          have hbe : bad.1.parts = e.1.parts.take j := List.append_cancel_left hparts
          have hle : partsLe bad.1.parts e.1.parts = true := by
            rw [hbe]
            exact partsLe_take _ _
          have hr := (hrelpw e he).2
          rw [hle] at hr
          simp at hr
  refine ⟨?_, ?_, ?_⟩
  · intro hmiss
    have hstep := buildStep_missing dest fs₁ bad hbadvalid (by rw [hhostpres]; exact hmiss)
    rw [heq]
    show (buildEntries dest (bad :: rest) fs₁).1
      = Except.error (CtxError.missingHostPath bad.2)
    unfold buildEntries
    rw [hstep]
  · intro hother
    have hstep := buildStep_other dest fs₁ bad hbadvalid (by rw [hhostpres]; exact hother)
    rw [heq]
    show (buildEntries dest (bad :: rest) fs₁).1
      = Except.error (CtxError.notFileOrDir bad.2)
    unfold buildEntries
    rw [hstep]
  · intro hbadnode
    rw [heq]
    show fsGet (buildEntries dest (bad :: rest) fs₁).2 (dest.join bad.1) = none
    rcases hbadnode with hm | hm
    · have hstep := buildStep_missing dest fs₁ bad hbadvalid (by rw [hhostpres]; exact hm)
      unfold buildEntries
      rw [hstep]
      exact hfs₁_none
    · have hstep := buildStep_other dest fs₁ bad hbadvalid (by rw [hhostpres]; exact hm)
      unfold buildEntries
      rw [hstep]
      exact hfs₁_none

/-- Witness for C6: a single entry whose host `/missing` does not exist
makes `build` raise the not-found error. -/
theorem claim_C6_missing_host_witness :
    ((BuildContext.mk none [(parsePath "x", parsePath "/missing")]).build
        [(parsePath "/", FSNode.dir)] (parsePath "/d")).1
      = Except.error (CtxError.missingHostPath (parsePath "/missing")) :=
  (claim_C6_missing_host (BuildContext.mk none [(parsePath "x", parsePath "/missing")])
    [(parsePath "/", FSNode.dir)] (parsePath "/d") []
    (parsePath "x", parsePath "/missing") [] rfl (by decide) (by decide) (by decide)
    (by decide) (by decide) (by decide) (by decide) (by decide) (by decide)
    (by decide)).1 (by decide)

/-- C10 (amended): on a context with no registered entries, if `dest` and
each of its ancestors is absent or a directory, `build(dest)` succeeds,
creates `dest` and its missing ancestors as directories, and performs no
other filesystem change. -/
theorem claim_C10_empty_build
    (c : BuildContext) (fs : FS) (dest : PyPath)
    (hempty : c.context_entries = [])
    (hchain : ∀ q ∈ ancestors dest ++ [dest], noneOrDir (fsGet fs q) = true) :
    ∃ fs', c.build fs dest = (Except.ok (), fs') ∧
      fsGet fs' dest = some FSNode.dir ∧
      (∀ q ∈ ancestors dest, fsGet fs' q = some FSNode.dir) ∧
      (∀ q, fsGet fs' q ≠ fsGet fs q →
        (q = dest ∨ q ∈ ancestors dest) ∧ fsGet fs q = none ∧
          fsGet fs' q = some FSNode.dir) := by
  have hmk := mkdirParents_ok fs dest hchain
  refine ⟨mkdirFold (ancestors dest ++ [dest]) fs, ?_, ?_, ?_, ?_⟩
  · unfold BuildContext.build
    rw [hmk]
    show buildEntries dest c.context_entries (mkdirFold (ancestors dest ++ [dest]) fs)
      = (Except.ok (), mkdirFold (ancestors dest ++ [dest]) fs)
    rw [hempty]
    rfl
  · rw [fsGet_mkdirFold]
    cases hfd : fsGet fs dest with
    | none =>
      rw [if_pos ⟨List.mem_append_right _ (List.mem_singleton.mpr rfl), rfl⟩]
    | some n =>
      have hnd1 := hchain dest (List.mem_append_right _ (List.mem_singleton.mpr rfl))
      rw [hfd] at hnd1
      have hdir : n = FSNode.dir := by
        cases n with
        | file content => simp [noneOrDir] at hnd1
        | dir => rfl
        | other => simp [noneOrDir] at hnd1
      rw [if_neg (fun hcond => absurd hcond.2 (by simp))]
      rw [hdir]
  · intro q hq
    rw [fsGet_mkdirFold]
    cases hfq : fsGet fs q with
    | none =>
      rw [if_pos ⟨List.mem_append_left _ hq, rfl⟩]
    | some n =>
      have hnd1 := hchain q (List.mem_append_left _ hq)
      rw [hfq] at hnd1
      have hdir : n = FSNode.dir := by
        cases n with
        | file content => simp [noneOrDir] at hnd1
        | dir => rfl
        | other => simp [noneOrDir] at hnd1
      rw [if_neg (fun hcond => absurd hcond.2 (by simp))]
      rw [hdir]
  · intro q hq
    rw [fsGet_mkdirFold] at hq
    by_cases hcond : q ∈ (ancestors dest ++ [dest]) ∧ fsGet fs q = none
    · refine ⟨?_, hcond.2, ?_⟩
      · rcases List.mem_append.mp hcond.1 with hmem | hmem
        · exact Or.inr hmem
        · rw [List.mem_singleton] at hmem
          exact Or.inl hmem
      · rw [fsGet_mkdirFold, if_pos hcond]
    · rw [if_neg hcond] at hq
      exact absurd rfl hq

/-- Counterexample for C10 as stated: when `dest` already exists as a
regular file, `build` on an empty context raises (mkdir fails) instead of
succeeding. -/
theorem claim_C10_counterexample :
    ((BuildContext.init none).build [(parsePath "/d", FSNode.file [])]
        (parsePath "/d")).1
      = Except.error (CtxError.fileExists (parsePath "/d"))
    ∧ (Except.error (CtxError.fileExists (parsePath "/d"))
        ≠ (Except.ok () : Except CtxError Unit)) :=
  ⟨by rfl, by simp⟩

/-- Witness for C10 (amended): building an empty context into the absent
`/d/e` creates `/d` and `/d/e`. -/
theorem claim_C10_empty_build_witness :
    ∃ fs', (BuildContext.init none).build [(parsePath "/", FSNode.dir)]
        (parsePath "/d/e") = (Except.ok (), fs') ∧
      fsGet fs' (parsePath "/d/e") = some FSNode.dir ∧
      (∀ q ∈ ancestors (parsePath "/d/e"), fsGet fs' q = some FSNode.dir) ∧
      (∀ q, fsGet fs' q ≠ fsGet [(parsePath "/", FSNode.dir)] q →
        (q = parsePath "/d/e" ∨ q ∈ ancestors (parsePath "/d/e")) ∧
          fsGet [(parsePath "/", FSNode.dir)] q = none ∧
          fsGet fs' q = some FSNode.dir) :=
  claim_C10_empty_build (BuildContext.init none) [(parsePath "/", FSNode.dir)]
    (parsePath "/d/e") (by rfl) (by decide)

/-- C8 (amended): `DockerBuilder.build` materializes the builder's
`BuildContext` only in the default case: with no `docker_context`, the
engine receives `<temp>/context`, the very directory into which
`BuildContext.build` materializes the entries; with a caller-supplied
`docker_context`, that directory is resolved and passed to the engine
as-is, without materializing the builder's context into it. -/
theorem claim_C8_docker_build_context :
    (∀ (context : BuildContext) (fs : FS) (temp_path p : PyPath),
      dockerBuilderBuild context fs temp_path (some p)
        = (Except.ok (), fs, resolveAbs p))
    ∧ (∀ (context : BuildContext) (fs : FS) (temp_path : PyPath) (fs₁ : FS),
      mkdirParents fs (temp_path.join (pathOfName "context")) = Except.ok fs₁ →
      dockerBuilderBuild context fs temp_path none =
        ((BuildContext.build context fs₁ (temp_path.join (pathOfName "context"))).1,
          (BuildContext.build context fs₁ (temp_path.join (pathOfName "context"))).2,
          temp_path.join (pathOfName "context"))) := by
  constructor
  · intro context fs temp_path p
    rfl
  · intro context fs temp_path fs₁ hmk
    show (match mkdirParents fs (temp_path.join (pathOfName "context")) with
      | Except.error e => ((Except.error e : Except CtxError Unit), fs,
          temp_path.join (pathOfName "context"))
      | Except.ok fs₂ =>
        match BuildContext.build context fs₂ (temp_path.join (pathOfName "context")) with
        | (res, fs₃) => (res, fs₃, temp_path.join (pathOfName "context"))) = _
    rw [hmk]

/-- Counterexample for C8 as stated: with a caller-supplied
`docker_context` directory, the builder's registered entry is NOT
materialized: the filesystem is returned unchanged and the engine
directory `/ctxdir` does not contain `f.txt`. -/
theorem claim_C8_counterexample :
    dockerBuilderBuild
        (((BuildContext.init none).add_context_entry (parsePath "/s/f.txt")).2)
        [(parsePath "/", FSNode.dir), (parsePath "/s", FSNode.dir),
         (parsePath "/s/f.txt", FSNode.file [7]), (parsePath "/ctxdir", FSNode.dir)]
        (parsePath "/t") (some (parsePath "/ctxdir"))
      = (Except.ok (),
          [(parsePath "/", FSNode.dir), (parsePath "/s", FSNode.dir),
           (parsePath "/s/f.txt", FSNode.file [7]), (parsePath "/ctxdir", FSNode.dir)],
          parsePath "/ctxdir")
    ∧ (parsePath "f.txt", parsePath "/s/f.txt") ∈
        (((BuildContext.init none).add_context_entry (parsePath "/s/f.txt")).2).context_entries
    ∧ fsGet [(parsePath "/", FSNode.dir), (parsePath "/s", FSNode.dir),
        (parsePath "/s/f.txt", FSNode.file [7]), (parsePath "/ctxdir", FSNode.dir)]
        ((parsePath "/ctxdir").join (parsePath "f.txt")) = none :=
  ⟨by rfl, by decide, by decide⟩

/-- Witness for C8 (amended): with temp path `/t` whose `context`
subdirectory already exists, the default branch hands `<temp>/context`
to `BuildContext.build` and to the engine. -/
theorem claim_C8_docker_build_context_witness :
    dockerBuilderBuild (BuildContext.init none)
        [(parsePath "/", FSNode.dir), (parsePath "/t", FSNode.dir),
         (parsePath "/t/context", FSNode.dir)] (parsePath "/t") none =
      ((BuildContext.build (BuildContext.init none)
          [(parsePath "/", FSNode.dir), (parsePath "/t", FSNode.dir),
           (parsePath "/t/context", FSNode.dir)]
          ((parsePath "/t").join (pathOfName "context"))).1,
        (BuildContext.build (BuildContext.init none)
          [(parsePath "/", FSNode.dir), (parsePath "/t", FSNode.dir),
           (parsePath "/t/context", FSNode.dir)]
          ((parsePath "/t").join (pathOfName "context"))).2,
        (parsePath "/t").join (pathOfName "context")) :=
  claim_C8_docker_build_context.2 (BuildContext.init none)
    [(parsePath "/", FSNode.dir), (parsePath "/t", FSNode.dir),
     (parsePath "/t/context", FSNode.dir)] (parsePath "/t")
    [(parsePath "/", FSNode.dir), (parsePath "/t", FSNode.dir),
     (parsePath "/t/context", FSNode.dir)] (by rfl)

end BuildClaims

end Pythainer
